import Mathlib

/-!
Verification development for the qualtricsutilapp repository: a YAML editor
with a comment-preserving reformatter, a launcher with a configuration check,
and a line-number gutter.

The reformatter core (parse and re-serialize) lives in the external
ruamel.yaml library, so it is modelled from the specification over a
canonical YAML subset: block mappings whose values are scalars, sequences
of scalar items, or nested mappings, with at most one own-line comment
attached to each entry.  The wrapper control flow (empty-buffer check,
error dialog, buffer replacement), the connection check, the save-as logic
and the gutter-width loop are translated from the source files.
-/

namespace QualtricsUtil

/-- Whitespace test matching the default Python str.strip: space, tab,
newline, carriage return, vertical tab and form feed. -/
def isPySpace (c : Char) : Bool :=
  c = ' ' || c = '\t' || c = '\n' || c = '\r' || c = Char.ofNat 11 || c = Char.ofNat 12

/-- Python str.strip on a character list: drop whitespace from both ends. -/
def pyStrip (s : List Char) : List Char :=
  ((s.dropWhile isPySpace).reverse.dropWhile isPySpace).reverse

/-- Formatting options fixed throughout the application by
yaml.indent(mapping=2, sequence=4, offset=2). -/
structure FormatOptions where
  mappingIndent : Nat
  sequenceIndent : Nat
  sequenceOffset : Nat
deriving DecidableEq, Repr

/-- Options used by every call site: mapping indent 2, sequence indent 4,
sequence dash offset 2. -/
def defaultOptions : FormatOptions := ⟨2, 4, 2⟩

/-- Document model of the canonical YAML subset.  A document is an ordered
mapping; each entry carries an optional own-line comment (the text after
the hash sign), a key, and a value that is a scalar, a sequence of scalar
items, or a nested mapping.  Key insertion order is the list order. -/
inductive Mapping where
  | nil : Mapping
  | scalarE (comment : Option (List Char)) (key : List Char)
      (val : List Char) (rest : Mapping)
  | seqE (comment : Option (List Char)) (key : List Char)
      (items : List (List Char)) (rest : Mapping)
  | mapE (comment : Option (List Char)) (key : List Char)
      (sub : Mapping) (rest : Mapping)
deriving DecidableEq, Repr

/-- Test for the empty mapping. -/
def Mapping.isNil : Mapping → Bool
  | .nil => true
  | _ => false

/-- Result of one format request, as in the specification: success with
the new text, a parse failure with a message, or the sentinel for an
empty buffer. -/
inductive FormatResult where
  | nothingToFormat : FormatResult
  | formatted (text : String) : FormatResult
  | parseFailed (message : String) : FormatResult
deriving DecidableEq, Repr

/-! Serializer: a document is rendered to a list of (indent, content)
pairs, one per physical line, then joined with newlines. -/

/-- Indentation prefix of a rendered line. -/
def spaces (n : Nat) : List Char := List.replicate n ' '

/-- Rendered own-line comment, at the indent column of its entry. -/
def commentLines (i : Nat) : Option (List Char) → List (Nat × List Char)
  | none => []
  | some c => [(i, '#' :: c)]

/-- Rendered sequence item: the dash sits sequenceOffset columns to the
right of the parent key, so the item text starts at
sequenceOffset + 2 = sequenceIndent columns. -/
def seqItemLine (opts : FormatOptions) (i : Nat) (s : List Char) : Nat × List Char :=
  (i + opts.sequenceOffset, '-' :: ' ' :: s)

/-- Serialize a mapping at indent column i into (indent, content) lines.
Nested mappings are indented mappingIndent further; sequence dashes are
offset sequenceOffset from the parent column. -/
def dumpMapping (opts : FormatOptions) (i : Nat) : Mapping → List (Nat × List Char)
  | .nil => []
  | .scalarE c k v rest =>
      commentLines i c ++ (i, k ++ ':' :: ' ' :: v) :: dumpMapping opts i rest
  | .seqE c k items rest =>
      commentLines i c ++
        (i, k ++ [':']) :: (items.map (seqItemLine opts i) ++ dumpMapping opts i rest)
  | .mapE c k sub rest =>
      commentLines i c ++
        (i, k ++ [':']) ::
          (dumpMapping opts (i + opts.mappingIndent) sub ++ dumpMapping opts i rest)

/-- Join rendered lines, each terminated by a newline. -/
def unlines (ls : List (List Char)) : List Char :=
  ls.foldr (fun l acc => l ++ '\n' :: acc) []

/-- Full textual rendering of a document. -/
def renderDoc (opts : FormatOptions) (d : Mapping) : List Char :=
  unlines ((dumpMapping opts 0 d).map (fun p => spaces p.1 ++ p.2))

/-! Well-formedness of documents in canonical form: exactly the documents
the parser can produce, and on which the serializer inverts the parser. -/

/-- Comment texts may not span lines. -/
def okComment : Option (List Char) → Bool
  | none => true
  | some c => !c.contains '\n'

/-- Keys are nonempty, free of colons and newlines, and do not begin with
a dash, a hash sign, or a space. -/
def okKey (k : List Char) : Bool :=
  !k.isEmpty && k.head? != some '-' && k.head? != some '#' &&
    k.head? != some ' ' && !k.contains ':' && !k.contains '\n'

/-- Scalar values are nonempty, do not begin with a space, and contain no
newline. -/
def okScalar (v : List Char) : Bool :=
  !v.isEmpty && v.head? != some ' ' && !v.contains '\n'

/-- Sequence items do not begin with a space and contain no newline. -/
def okItem (s : List Char) : Bool :=
  s.head? != some ' ' && !s.contains '\n'

/-- Canonical well-formed documents. -/
def WF : Mapping → Bool
  | .nil => true
  | .scalarE c k v rest => okComment c && okKey k && okScalar v && WF rest
  | .seqE c k items rest =>
      okComment c && okKey k && !items.isEmpty && items.all okItem && WF rest
  | .mapE c k sub rest =>
      okComment c && okKey k && !sub.isNil && WF sub && WF rest

/-! Parser: the source text is split into physical lines; blank lines are
dropped and each remaining line is classified by its indent column and
content.  A fuel argument keeps the recursion structural; one unit of fuel
is spent per mapping entry, so fuel exceeding the number of lines always
suffices. -/

/-- Physical line of input: 1-based line number, indent column, and
content with the leading spaces removed. -/
structure Line where
  num : Nat
  indent : Nat
  content : List Char
deriving DecidableEq, Repr

/-- Split a character list at newlines. -/
def splitNL : List Char → List (List Char)
  | [] => [[]]
  | c :: r =>
    if c = '\n' then [] :: splitNL r
    else
      match splitNL r with
      | [] => [[c]]
      | l :: ls => (c :: l) :: ls

/-- Number raw lines from n, measure indentation, drop blank lines. -/
def mkLines : List (List Char) → Nat → List Line
  | [], _ => []
  | l :: rest, n =>
    let content := l.dropWhile (· = ' ')
    if content.isEmpty then mkLines rest (n + 1)
    else ⟨n, l.length - content.length, content⟩ :: mkLines rest (n + 1)

/-- Attach consecutive line numbers to (indent, content) pairs. -/
def numberLines : List (Nat × List Char) → Nat → List Line
  | [], _ => []
  | p :: rest, n => ⟨n, p.1, p.2⟩ :: numberLines rest (n + 1)

/-- Parse error: offending line number and a human-readable message. -/
structure PErr where
  line : Nat
  msg : String
deriving DecidableEq, Repr

/-- Split a character list at its first colon. -/
def splitColon : List Char → Option (List Char × List Char)
  | [] => none
  | c :: r =>
    if c = ':' then some ([], r)
    else (splitColon r).map (fun p => (c :: p.1, p.2))

/-- Parse the lines of a sequence block: every line sits at indent column
j and reads as a dash, a space, and the item text. -/
def parseSeqLines (j : Nat) : List Line → Except PErr (List (List Char))
  | [] => .ok []
  | ln :: rest =>
    if ln.indent ≠ j then
      .error ⟨ln.num, "wrong indentation for a sequence item"⟩
    else
      match ln.content with
      | '-' :: cs =>
        if cs.isEmpty || cs.head? == some ' ' then
          match parseSeqLines j rest with
          | .ok items => .ok (cs.dropWhile (· = ' ') :: items)
          | .error e => .error e
        else .error ⟨ln.num, "expected a space after the sequence dash"⟩
      | _ => .error ⟨ln.num, "expected a sequence item starting with a dash"⟩

/-- Separate an optional own-line comment from the entry line it precedes. -/
def takeEntryHead (i : Nat) (ln : Line) (rest : List Line) :
    Except PErr (Option (List Char) × Line × List Line) :=
  if ln.content.head? == some '#' then
    match rest with
    | [] => .error ⟨ln.num, "comment is not followed by a mapping entry"⟩
    | ln2 :: rest2 =>
      if ln2.indent = i && !(ln2.content.head? == some '#') then
        .ok (some ln.content.tail, ln2, rest2)
      else .error ⟨ln.num, "comment is not followed by a mapping entry"⟩
  else .ok (none, ln, rest)

/-- Parse a block of lines as a mapping whose entries sit at indent column
i.  The lines strictly more indented after an entry form its child block:
a sequence when they begin with a dash, a nested mapping otherwise. -/
def parseBlock (opts : FormatOptions) : Nat → Nat → List Line → Except PErr Mapping
  | 0, _, _ => .error ⟨0, "document is too deeply nested"⟩
  | fuel + 1, i, lines =>
    match lines with
    | [] => .ok .nil
    | ln :: rest =>
      if ln.indent ≠ i then
        .error ⟨ln.num, "wrong indentation for a mapping entry"⟩
      else
        match takeEntryHead i ln rest with
        | .error e => .error e
        | .ok (cmt, kln, rest2) =>
          match splitColon kln.content with
          | none => .error ⟨kln.num, "expected a colon in a mapping entry"⟩
          | some (k, r) =>
            if k.isEmpty then .error ⟨kln.num, "empty mapping key"⟩
            else if k.head? == some '-' then
              .error ⟨kln.num, "mapping key may not begin with a dash"⟩
            else
              let v := r.dropWhile (· = ' ')
              let childBlock := rest2.takeWhile (fun l => decide (i < l.indent))
              let sibs := rest2.dropWhile (fun l => decide (i < l.indent))
              if v.isEmpty then
                match childBlock with
                | [] => .error ⟨kln.num, "missing value for a mapping entry"⟩
                | cl :: _ =>
                  if cl.content.head? == some '-' then
                    match parseSeqLines (i + opts.sequenceOffset) childBlock with
                    | .error e => .error e
                    | .ok items =>
                      match parseBlock opts fuel i sibs with
                      | .error e => .error e
                      | .ok m => .ok (.seqE cmt k items m)
                  else
                    match parseBlock opts fuel (i + opts.mappingIndent) childBlock with
                    | .error e => .error e
                    | .ok sub =>
                      match parseBlock opts fuel i sibs with
                      | .error e => .error e
                      | .ok m => .ok (.mapE cmt k sub m)
              else
                if childBlock.isEmpty then
                  match parseBlock opts fuel i sibs with
                  | .error e => .error e
                  | .ok m => .ok (.scalarE cmt k v m)
                else
                  .error ⟨kln.num, "a scalar value may not carry an indented block"⟩

/-- Parse a whole document: split into lines, then parse one mapping block
at column zero.  Fuel one past the line count always suffices. -/
def parseDoc (opts : FormatOptions) (t : List Char) : Except PErr Mapping :=
  let lines := mkLines (splitNL t) 1
  parseBlock opts (lines.length + 1) 0 lines

/-- Human-readable rendering of a parse error, position included. -/
def renderErr (e : PErr) : String :=
  "line " ++ toString e.line ++ ": " ++ e.msg

/-- Modelled from the spec: the format operation of the YamlReformatter
core, whose parse and serialize steps are performed in the source by the
external ruamel.yaml library (absent from the repository).  An empty or
whitespace-only text yields the sentinel; a parse failure yields
ParseFailed with the parser message; otherwise the reparsed document is
re-serialized under the given options. -/
def format (opts : FormatOptions) (sourceText : String) : FormatResult :=
  if (pyStrip sourceText.data).isEmpty then .nothingToFormat
  else
    match parseDoc opts sourceText.data with
    | .ok d => .formatted (String.mk (renderDoc opts d))
    | .error e => .parseFailed (renderErr e)

/-- Observable user-interface effect of one format request. -/
inductive UIEffect where
  | silent : UIEffect
  | infoNotice (title message : String) : UIEffect
  | errorDialog (title message : String) : UIEffect
deriving DecidableEq, Repr

/-- Test for the informational-notice effect. -/
def UIEffect.isInfoNotice : UIEffect → Bool
  | .infoNotice _ _ => true
  | _ => false

/-- Test for the error-dialog effect. -/
def UIEffect.isErrorDialog : UIEffect → Bool
  | .errorDialog _ _ => true
  | _ => false

namespace YAMLEditor

/-- Translation of YAMLEditor.format_yaml from src/edit_1.py: returns the
new buffer contents and the user-interface effect.  An empty buffer shows
an informational notice; a parse failure shows a critical dialog and
leaves the buffer unchanged; success replaces the buffer. -/
def format_yaml (buffer : String) : String × UIEffect :=
  if (pyStrip buffer.data).isEmpty then
    (buffer, .infoNotice "Nothing to Format" "The editor is empty.")
  else
    match parseDoc defaultOptions buffer.data with
    | .ok d => (String.mk (renderDoc defaultOptions d), .silent)
    | .error e =>
      (buffer, .errorDialog "YAML Formatting Error"
        ("Could not parse YAML. Please check your syntax.\n\nError: " ++ renderErr e))

end YAMLEditor

namespace EditorWindow

/-- Translation of EditorWindow.format_yaml from src/main1.py: identical
to the edit_1 variant except that an empty buffer returns silently, with
no notice of any kind. -/
def format_yaml (buffer : String) : String × UIEffect :=
  if (pyStrip buffer.data).isEmpty then (buffer, .silent)
  else
    match parseDoc defaultOptions buffer.data with
    | .ok d => (String.mk (renderDoc defaultOptions d), .silent)
    | .error e =>
      (buffer, .errorDialog "YAML Formatting Error"
        ("Could not parse YAML.\nError: " ++ renderErr e))

end EditorWindow

/-! Connection check, from src/qualtrics_util.py.  The filesystem and the
outcome of yaml.safe_load on each file are modelled from the spec: the
library that parses the two files is external to the repository, so a file
is represented directly by its load outcome, either a parse failure or the
loaded data (null, or a top-level mapping listed by its keys). -/

/-- Modelled from the spec: result of yaml.safe_load on a parseable file:
null for an empty document, or a top-level mapping given by its keys. -/
inductive YamlData where
  | null : YamlData
  | mapping (keys : List String) : YamlData
deriving DecidableEq, Repr

/-- Python truthiness of the loaded data: None and the empty dict are
falsy. -/
def YamlData.truthy : YamlData → Bool
  | .null => false
  | .mapping keys => !keys.isEmpty

/-- Python membership test of a key in the loaded data. -/
def YamlData.hasKey (d : YamlData) (k : String) : Bool :=
  match d with
  | .null => false
  | .mapping keys => keys.contains k

/-- Modelled from the spec: what opening and parsing one file yields. -/
inductive FileOutcome where
  | unparsable (err : String) : FileOutcome
  | loaded (data : YamlData) : FileOutcome
deriving DecidableEq, Repr

/-- Modelled from the spec: the filesystem, a finite map from paths to
file outcomes. -/
structure FileSystem where
  files : List (String × FileOutcome)
deriving DecidableEq, Repr

/-- Existence check, as os.path.exists. -/
def FileSystem.pathExists (fs : FileSystem) (p : String) : Bool :=
  (fs.files.lookup p).isSome

/-- Open and safe-load one file. -/
def FileSystem.readYaml (fs : FileSystem) (p : String) : Option FileOutcome :=
  fs.files.lookup p

/-- Message returned when the token path is empty or missing. -/
def tokenNotFoundMsg : String := "Qualtrics token file not found or path is not set."

/-- Message returned when the config path is empty or missing. -/
def configNotFoundMsg : String := "Project config file not found or path is not set."

/-- Message returned when the token file parses but lacks the key. -/
def tokenKeyMissingMsg : String :=
  "YAML is valid, but QUALTRICS_APITOKEN key is missing in the token file."

/-- Message returned when the config file parses but lacks the key. -/
def configKeyMissingMsg : String :=
  "YAML is valid, but \x27project_id\x27 key is missing in the config file."

/-- Message returned when a file fails to parse. -/
def parseFailMsg (e : String) : String :=
  "Failed to parse a YAML file. Please check its syntax.\nError: " ++ e

/-- Message returned on success. -/
def successMsg : String :=
  "Successfully connected to Qualtrics and validated configuration."

/-- Message of the generic exception handler. -/
def unexpectedErrMsg (e : String) : String :=
  "An unexpected error occurred: " ++ e

/-- Translation of check_connection from src/qualtrics_util.py, returning
the (success, message) pair together with the list of files opened, in
order.  Both path-existence checks run before any file is opened; the
token file is read and validated before the config file is touched. -/
def check_connection_run (fs : FileSystem) (token_file_path config_file_path : String) :
    (Bool × String) × List String :=
  if token_file_path = "" || !fs.pathExists token_file_path then
    ((false, tokenNotFoundMsg), [])
  else if config_file_path = "" || !fs.pathExists config_file_path then
    ((false, configNotFoundMsg), [])
  else
    match fs.readYaml token_file_path with
    | none => ((false, unexpectedErrMsg "token file could not be opened"), [])
    | some (.unparsable e) => ((false, parseFailMsg e), [token_file_path])
    | some (.loaded tokenData) =>
      if !tokenData.truthy || !tokenData.hasKey "QUALTRICS_APITOKEN" then
        ((false, tokenKeyMissingMsg), [token_file_path])
      else
        match fs.readYaml config_file_path with
        | none =>
          ((false, unexpectedErrMsg "config file could not be opened"), [token_file_path])
        | some (.unparsable e) =>
          ((false, parseFailMsg e), [token_file_path, config_file_path])
        | some (.loaded configData) =>
          if !configData.truthy || !configData.hasKey "project_id" then
            ((false, configKeyMissingMsg), [token_file_path, config_file_path])
          else ((true, successMsg), [token_file_path, config_file_path])

/-- Result of check_connection, trace forgotten. -/
def check_connection (fs : FileSystem) (token_file_path config_file_path : String) :
    Bool × String :=
  (check_connection_run fs token_file_path config_file_path).1

/-- Recognizer for the parse-failure message class. -/
def isParseFailMsg (m : String) : Bool :=
  List.isPrefixOf "Failed to parse a YAML file.".data m.data

/-- Test whether a file exists and fails to parse. -/
def fileUnparsable (fs : FileSystem) (p : String) : Bool :=
  match fs.readYaml p with
  | some (.unparsable _) => true
  | _ => false

/-- Test whether a file exists, parses, and lacks the required key. -/
def fileKeyBad (fs : FileSystem) (p key : String) : Bool :=
  match fs.readYaml p with
  | some (.loaded d) => !d.truthy || !d.hasKey key
  | _ => false

/-- Claim C7 read as ordered guards: any missing path gives a not-found
message; otherwise any unparsable file gives a parse-error message;
otherwise any missing key gives a missing-key message; otherwise success
with the fixed message. -/
def claimC7Holds (fs : FileSystem) (tp cp : String) : Bool :=
  let r := check_connection fs tp cp
  if tp = "" || !fs.pathExists tp || cp = "" || !fs.pathExists cp then
    !r.1 && (r.2 == tokenNotFoundMsg || r.2 == configNotFoundMsg)
  else if fileUnparsable fs tp || fileUnparsable fs cp then
    !r.1 && isParseFailMsg r.2
  else if fileKeyBad fs tp "QUALTRICS_APITOKEN" || fileKeyBad fs cp "project_id" then
    !r.1 && (r.2 == tokenKeyMissingMsg || r.2 == configKeyMissingMsg)
  else r.1 && r.2 == successMsg

/-- Amended contract of check_connection, following the words of the
corrected claim: the token path is checked, then the config path; then the
token file is parsed and its key checked; only then is the config file
parsed and its key checked; success otherwise. -/
def check_connection_spec (fs : FileSystem) (tp cp : String) : Bool × String :=
  if tp = "" || !fs.pathExists tp then (false, tokenNotFoundMsg)
  else if cp = "" || !fs.pathExists cp then (false, configNotFoundMsg)
  else
    match fs.readYaml tp with
    | none => (false, unexpectedErrMsg "token file could not be opened")
    | some (.unparsable e) => (false, parseFailMsg e)
    | some (.loaded d) =>
      if !(d.truthy && d.hasKey "QUALTRICS_APITOKEN") then (false, tokenKeyMissingMsg)
      else
        match fs.readYaml cp with
        | none => (false, unexpectedErrMsg "config file could not be opened")
        | some (.unparsable e) => (false, parseFailMsg e)
        | some (.loaded d2) =>
          if !(d2.truthy && d2.hasKey "project_id") then (false, configKeyMissingMsg)
          else (true, successMsg)

/-! Save-as logic, from EditorWindow.save_file_as in src/main1.py (the
YAMLEditor variant in src/edit_1.py is line for line the same logic). -/

/-- Editor state: the remembered file path, the buffer, and the writes
performed so far, most recent first. -/
structure EditorState where
  current_file_path : Option String
  buffer : String
  disk : List (String × String)
deriving DecidableEq, Repr

/-- Python endswith on the pair of YAML extensions. -/
def endsWithYamlExt (p : String) : Bool :=
  List.isSuffixOf ".yaml".data p.data || List.isSuffixOf ".yml".data p.data

namespace EditorWindow

/-- Translation of EditorWindow.save_file: with a remembered path, write
the buffer there; with none, the source falls through to the save-as
dialog, modelled here as leaving the state unchanged. -/
def save_file (st : EditorState) : EditorState :=
  match st.current_file_path with
  | some p => { st with disk := (p, st.buffer) :: st.disk }
  | none => st

/-- Translation of EditorWindow.save_file_as: chosen is the dialog result,
the empty string meaning cancel.  A name without a YAML extension gets
.yaml appended; the path is remembered and the buffer saved to it. -/
def save_file_as (chosen : String) (st : EditorState) : EditorState :=
  if chosen = "" then st
  else
    let path := if endsWithYamlExt chosen then chosen else chosen ++ ".yaml"
    save_file { st with current_file_path := some path }

end EditorWindow

/-- Test whether some entry of the document, at any depth, carries the
own-line comment c and the key k. -/
def hasCommentedEntry (c k : List Char) : Mapping → Bool
  | .nil => false
  | .scalarE c2 k2 _ rest =>
      (c2 == some c && k2 == k) || hasCommentedEntry c k rest
  | .seqE c2 k2 _ rest =>
      (c2 == some c && k2 == k) || hasCommentedEntry c k rest
  | .mapE c2 k2 sub rest =>
      (c2 == some c && k2 == k) || hasCommentedEntry c k sub ||
        hasCommentedEntry c k rest

/-! Line-number gutter width, from CodeEditor.lineNumberAreaWidth in
src/edit_linenum.py and src/main1.py. -/

/-- Digit-counting loop: while count is at least ten, divide by ten and
bump the digit count.  The fuel argument keeps the recursion structural;
fuel equal to the starting count always suffices. -/
def digitLoop : Nat → Nat → Nat → Nat
  | 0, _, digits => digits
  | fuel + 1, count, digits =>
    if count ≥ 10 then digitLoop fuel (count / 10) (digits + 1) else digits

/-- Translation of lineNumberAreaWidth: ten pixels of padding plus the
advance of the digit nine times the digit count of max 1 blockCount. -/
def lineNumberAreaWidth (blockCount : Nat) (advance9 : Nat) : Nat :=
  let count := max 1 blockCount
  10 + advance9 * digitLoop count count 1

/-! Generic helper lemmas. -/

theorem contains_eq_false_iff {c : Char} {l : List Char} :
    l.contains c = false ↔ c ∉ l := by
  rw [← Bool.not_eq_true, List.contains_iff_exists_mem_beq]
  simp

theorem takeWhile_append_all {α : Type} (p : α → Bool) (A B : List α)
    (hA : ∀ x ∈ A, p x = true) (hB : ∀ b, B.head? = some b → p b = false) :
    (A ++ B).takeWhile p = A ∧ (A ++ B).dropWhile p = B := by
  induction A with
  | nil =>
    cases B with
    | nil => simp
    | cons b bs =>
      have hb := hB b rfl
      simp [List.takeWhile_cons, List.dropWhile_cons, hb]
  | cons a as ih =>
    have ha := hA a (by simp)
    have ih2 := ih (fun x hx => hA x (by simp [hx]))
    simp [List.takeWhile_cons, List.dropWhile_cons, ha, ih2.1, ih2.2]

theorem dropWhile_head_not {α : Type} {p : α → Bool} {l : List α} {a : α}
    (h : (l.dropWhile p).head? = some a) : p a = false := by
  have := List.head?_dropWhile_not p l
  rw [h] at this
  simpa using this

theorem dropWhile_eq_self_of_head {α : Type} {p : α → Bool} {l : List α}
    (h : ∀ a, l.head? = some a → p a = false) : l.dropWhile p = l := by
  cases l with
  | nil => rfl
  | cons a as => simp [List.dropWhile_cons, h a rfl]

/-! Lemmas about pyStrip. -/

theorem pyStrip_eq_nil_iff {s : List Char} :
    pyStrip s = [] ↔ ∀ c ∈ s, isPySpace c = true := by
  unfold pyStrip
  rw [List.reverse_eq_nil_iff, List.dropWhile_eq_nil_iff]
  constructor
  · intro h c hc
    have hsplit := List.takeWhile_append_dropWhile (p := isPySpace) (l := s)
    rw [← hsplit] at hc
    rcases List.mem_append.mp hc with h1 | h2
    · exact List.mem_takeWhile_imp h1
    · exact h c (List.mem_reverse.mpr h2)
  · intro h c hc
    exact h c (List.dropWhile_subset _ (List.mem_reverse.mp hc))

theorem pyStrip_ne_nil {s : List Char} {c : Char}
    (hc : c ∈ s) (hns : isPySpace c = false) : pyStrip s ≠ [] := by
  intro h
  have := pyStrip_eq_nil_iff.mp h c hc
  rw [hns] at this
  cases this

/-! Lemmas about splitColon. -/

theorem splitColon_append {k r : List Char} (h : ':' ∉ k) :
    splitColon (k ++ ':' :: r) = some (k, r) := by
  induction k with
  | nil => simp [splitColon]
  | cons a as ih =>
    have ha : a ≠ ':' := fun e => h (by simp [e])
    have ih2 := ih (fun e => h (by simp [e]))
    simp [splitColon, ha, ih2]

theorem splitColon_ok {c k r : List Char} (h : splitColon c = some (k, r)) :
    c = k ++ ':' :: r ∧ ':' ∉ k := by
  induction c generalizing k with
  | nil => simp [splitColon] at h
  | cons a as ih =>
    by_cases ha : a = ':'
    · subst ha
      simp [splitColon] at h
      obtain ⟨h1, h2⟩ := h
      subst h1; subst h2
      simp
    · rw [splitColon] at h
      simp only [if_neg ha] at h
      cases hs : splitColon as with
      | none => rw [hs] at h; simp at h
      | some p =>
        rw [hs] at h
        simp only [Option.map_some', Option.some.injEq, Prod.mk.injEq] at h
        obtain ⟨h1, h2⟩ := h
        subst h2
        obtain ⟨he, hn⟩ := ih (k := p.1) hs
        subst h1
        refine ⟨by rw [he, List.cons_append], ?_⟩
        intro hm
        rcases List.mem_cons.mp hm with h3 | h3
        · exact ha h3.symm
        · exact hn h3

/-! Lemmas about line splitting and joining. -/

theorem splitNL_no_nl {s : List Char} : ∀ l ∈ splitNL s, '\n' ∉ l := by
  induction s with
  | nil => simp [splitNL]
  | cons c r ih =>
    by_cases hc : c = '\n'
    · subst hc
      intro l hl
      rw [splitNL] at hl
      simp only [if_pos rfl] at hl
      rcases List.mem_cons.mp hl with h | h
      · subst h; simp
      · exact ih l h
    · intro l hl
      rw [splitNL] at hl
      simp only [if_neg hc] at hl
      cases hs : splitNL r with
      | nil =>
        rw [hs] at hl; simp at hl; subst hl
        simp only [List.mem_singleton]
        exact fun e => hc e.symm
      | cons l0 ls =>
        rw [hs] at hl
        rcases List.mem_cons.mp hl with h | h
        · subst h
          intro hm
          rcases List.mem_cons.mp hm with h2 | h2
          · exact hc h2.symm
          · exact ih l0 (hs ▸ List.mem_cons_self _ _) h2
        · exact ih l (hs ▸ List.mem_cons_of_mem _ h)

theorem splitNL_ne_nil {s : List Char} : splitNL s ≠ [] := by
  cases s with
  | nil => simp [splitNL]
  | cons c r =>
    rw [splitNL]
    by_cases hc : c = '\n'
    · simp [hc]
    · simp only [if_neg hc]
      cases hs : splitNL r <;> simp

theorem splitNL_append_cons {l r : List Char} (h : '\n' ∉ l) :
    splitNL (l ++ '\n' :: r) = l :: splitNL r := by
  induction l with
  | nil => simp [splitNL]
  | cons c cs ih =>
    have hc : c ≠ '\n' := fun e => h (by simp [e])
    have ih2 := ih (fun hm => h (List.mem_cons_of_mem _ hm))
    rw [List.cons_append, splitNL]
    simp only [if_neg hc, ih2]

theorem splitNL_unlines {L : List (List Char)} (h : ∀ l ∈ L, '\n' ∉ l) :
    splitNL (unlines L) = L ++ [[]] := by
  induction L with
  | nil => simp [unlines, splitNL]
  | cons l ls ih =>
    have h1 : '\n' ∉ l := h l (by simp)
    have ih2 := ih (fun x hx => h x (by simp [hx]))
    show splitNL (l ++ '\n' :: unlines ls) = (l :: ls) ++ [[]]
    rw [splitNL_append_cons h1, ih2]
    rfl

theorem mem_splitNL {s : List Char} {c : Char} (hc : c ∈ s) (hn : c ≠ '\n') :
    ∃ l ∈ splitNL s, c ∈ l := by
  induction s with
  | nil => simp at hc
  | cons a r ih =>
    by_cases ha : a = '\n'
    · subst ha
      have hcr : c ∈ r := by
        rcases List.mem_cons.mp hc with h | h
        · exact absurd h hn
        · exact h
      obtain ⟨l, hl, hcl⟩ := ih hcr
      refine ⟨l, ?_, hcl⟩
      rw [splitNL]
      simp [hl]
    · rw [splitNL]
      simp only [if_neg ha]
      cases hs : splitNL r with
      | nil => exact absurd hs splitNL_ne_nil
      | cons l0 ls =>
        rcases List.mem_cons.mp hc with h | h
        · exact ⟨a :: l0, by simp, by simp [h]⟩
        · obtain ⟨l, hl, hcl⟩ := ih h
          rw [hs] at hl
          rcases List.mem_cons.mp hl with h2 | h2
          · exact ⟨a :: l0, by simp, by subst h2; simp [hcl]⟩
          · exact ⟨l, by simp [h2], hcl⟩

/-! Lemmas about mkLines and numberLines. -/

theorem dropWhile_spaces_append {c : List Char} {j : Nat}
    (h : c.head? ≠ some ' ') : (spaces j ++ c).dropWhile (· = ' ') = c := by
  induction j with
  | zero =>
    rw [show spaces 0 ++ c = c by simp [spaces]]
    apply dropWhile_eq_self_of_head
    intro a ha
    simp only [decide_eq_false_iff_not]
    intro e
    exact h (by rw [ha, e])
  | succ n ih =>
    show (List.replicate (n + 1) ' ' ++ c).dropWhile (· = ' ') = c
    rw [List.replicate_succ, List.cons_append, List.dropWhile_cons_of_pos (by simp)]
    exact ih

theorem numberLines_append (A B : List (Nat × List Char)) (n : Nat) :
    numberLines (A ++ B) n = numberLines A n ++ numberLines B (n + A.length) := by
  induction A generalizing n with
  | nil => simp [numberLines]
  | cons p ps ih =>
    rw [List.cons_append, numberLines, ih]
    have he : n + 1 + ps.length = n + (ps.length + 1) := by omega
    rw [he]
    rfl

theorem length_numberLines (L : List (Nat × List Char)) (n : Nat) :
    (numberLines L n).length = L.length := by
  induction L generalizing n with
  | nil => rfl
  | cons p ps ih => simp [numberLines, ih]

theorem mem_numberLines {L : List (Nat × List Char)} {n : Nat} {x : Line}
    (h : x ∈ numberLines L n) : (x.indent, x.content) ∈ L := by
  induction L generalizing n with
  | nil => simp [numberLines] at h
  | cons p ps ih =>
    rw [numberLines] at h
    rcases List.mem_cons.mp h with h1 | h1
    · subst h1; simp
    · exact List.mem_cons_of_mem _ (ih h1)

theorem mkLines_spaces {L : List (Nat × List Char)} {n : Nat}
    (h : ∀ x ∈ L, x.2 ≠ [] ∧ x.2.head? ≠ some ' ') :
    mkLines (L.map (fun p => spaces p.1 ++ p.2) ++ [[]]) n = numberLines L n := by
  induction L generalizing n with
  | nil => simp [mkLines, numberLines]
  | cons p ps ih =>
    obtain ⟨hne, hsp⟩ := h p (by simp)
    have hdrop : (spaces p.1 ++ p.2).dropWhile (· = ' ') = p.2 :=
      dropWhile_spaces_append hsp
    rw [List.map_cons, List.cons_append, mkLines]
    simp only [hdrop]
    rw [if_neg (by simpa [List.isEmpty_iff] using hne)]
    rw [ih (fun x hx => h x (by simp [hx]))]
    simp only [numberLines]
    congr 2
    simp [spaces]

theorem mkLines_hygiene {ls : List (List Char)} {n : Nat}
    (h : ∀ ch ∈ ls, '\n' ∉ ch) :
    ∀ l ∈ mkLines ls n, l.content.head? ≠ some ' ' ∧ '\n' ∉ l.content := by
  induction ls generalizing n with
  | nil => simp [mkLines]
  | cons ch rest ih =>
    intro l hl
    rw [mkLines] at hl
    by_cases he : (ch.dropWhile (· = ' ')).isEmpty
    · rw [if_pos he] at hl
      exact ih (fun x hx => h x (by simp [hx])) l hl
    · rw [if_neg he] at hl
      rcases List.mem_cons.mp hl with h1 | h1
      · subst h1
        constructor
        · intro hh
          have := dropWhile_head_not (l := ch) (p := (· = ' ')) hh
          simp at this
        · intro hm
          exact h ch (by simp) (List.dropWhile_subset _ hm)
      · exact ih (fun x hx => h x (by simp [hx])) l h1

theorem mkLines_ne_nil {ls : List (List Char)} {ch : List Char} {n : Nat}
    (hm : ch ∈ ls) (hne : ch.dropWhile (· = ' ') ≠ []) : mkLines ls n ≠ [] := by
  induction ls generalizing n with
  | nil => simp at hm
  | cons a rest ih =>
    rw [mkLines]
    rcases List.mem_cons.mp hm with h1 | h1
    · subst h1
      rw [if_neg (by simpa [List.isEmpty_iff] using hne)]
      simp
    · by_cases he : (a.dropWhile (· = ' ')).isEmpty
      · rw [if_pos he]
        exact ih h1
      · rw [if_neg he]
        simp

/-! Destructuring of the well-formedness predicates. -/

theorem okKey_spec {k : List Char} (h : okKey k = true) :
    k ≠ [] ∧ k.head? ≠ some '-' ∧ k.head? ≠ some '#' ∧ k.head? ≠ some ' ' ∧
      ':' ∉ k ∧ '\n' ∉ k := by
  simp only [okKey, Bool.and_eq_true, Bool.not_eq_true', bne_iff_ne] at h
  obtain ⟨⟨⟨⟨⟨h1, h2⟩, h3⟩, h4⟩, h5⟩, h6⟩ := h
  exact ⟨by simpa [List.isEmpty_iff] using h1, h2, h3, h4,
    contains_eq_false_iff.mp h5, contains_eq_false_iff.mp h6⟩

theorem okScalar_spec {v : List Char} (h : okScalar v = true) :
    v ≠ [] ∧ v.head? ≠ some ' ' ∧ '\n' ∉ v := by
  simp only [okScalar, Bool.and_eq_true, Bool.not_eq_true', bne_iff_ne] at h
  obtain ⟨⟨h1, h2⟩, h3⟩ := h
  exact ⟨by simpa [List.isEmpty_iff] using h1, h2, contains_eq_false_iff.mp h3⟩

theorem okItem_spec {s : List Char} (h : okItem s = true) :
    s.head? ≠ some ' ' ∧ '\n' ∉ s := by
  simp only [okItem, Bool.and_eq_true, Bool.not_eq_true', bne_iff_ne] at h
  exact ⟨h.1, contains_eq_false_iff.mp h.2⟩

theorem okComment_spec {c : List Char} (h : okComment (some c) = true) :
    '\n' ∉ c := by
  simp only [okComment, Bool.not_eq_true'] at h
  exact contains_eq_false_iff.mp h

/-! Structural facts about the serializer output. -/

theorem dump_indent_ge (d : Mapping) (i : Nat) :
    ∀ x ∈ dumpMapping defaultOptions i d, i ≤ x.1 := by
  induction d generalizing i with
  | nil => simp [dumpMapping]
  | scalarE c k v rest ih =>
    intro x hx
    rw [dumpMapping] at hx
    rcases List.mem_append.mp hx with h1 | h1
    · cases c with
      | none => simp [commentLines] at h1
      | some t => simp [commentLines] at h1; simp [h1]
    · rcases List.mem_cons.mp h1 with h2 | h2
      · simp [h2]
      · exact ih i x h2
  | seqE c k items rest ih =>
    intro x hx
    rw [dumpMapping] at hx
    rcases List.mem_append.mp hx with h1 | h1
    · cases c with
      | none => simp [commentLines] at h1
      | some t => simp [commentLines] at h1; simp [h1]
    · rcases List.mem_cons.mp h1 with h2 | h2
      · simp [h2]
      · rcases List.mem_append.mp h2 with h3 | h3
        · obtain ⟨s, _, hs⟩ := List.mem_map.mp h3
          rw [← hs]
          simp [seqItemLine]
        · exact ih i x h3
  | mapE c k sub rest ihsub ihrest =>
    intro x hx
    rw [dumpMapping] at hx
    rcases List.mem_append.mp hx with h1 | h1
    · cases c with
      | none => simp [commentLines] at h1
      | some t => simp [commentLines] at h1; simp [h1]
    · rcases List.mem_cons.mp h1 with h2 | h2
      · simp [h2]
      · rcases List.mem_append.mp h2 with h3 | h3
        · have := ihsub (i + defaultOptions.mappingIndent) x h3
          omega
        · exact ihrest i x h3

theorem dump_head_indent {d : Mapping} (i : Nat) (h : d ≠ .nil) :
    ∃ c, (dumpMapping defaultOptions i d).head? = some (i, c) := by
  cases d with
  | nil => exact absurd rfl h
  | scalarE c k v rest =>
    cases c with
    | none => exact ⟨_, rfl⟩
    | some t => exact ⟨_, rfl⟩
  | seqE c k items rest =>
    cases c with
    | none => exact ⟨_, rfl⟩
    | some t => exact ⟨_, rfl⟩
  | mapE c k sub rest =>
    cases c with
    | none => exact ⟨_, rfl⟩
    | some t => exact ⟨_, rfl⟩

theorem takeWhile_dump_nil (m : Mapping) (i n : Nat) :
    (numberLines (dumpMapping defaultOptions i m) n).takeWhile
        (fun l => decide (i < l.indent)) =
      [] ∧
    (numberLines (dumpMapping defaultOptions i m) n).dropWhile
        (fun l => decide (i < l.indent)) =
      numberLines (dumpMapping defaultOptions i m) n := by
  by_cases hm : m = .nil
  · subst hm
    simp [dumpMapping, numberLines]
  · obtain ⟨c, hc⟩ := dump_head_indent (d := m) i hm
    cases hd : dumpMapping defaultOptions i m with
    | nil => simp [hd, numberLines]
    | cons x xs =>
      rw [hd] at hc
      simp only [List.head?_cons, Option.some.injEq] at hc
      subst hc
      rw [numberLines]
      constructor
      · rw [List.takeWhile_cons_of_neg (by simp)]
      · rw [List.dropWhile_cons_of_neg (by simp)]

theorem child_split (A : List (Nat × List Char)) (m : Mapping) (i n : Nat)
    (hA : ∀ x ∈ A, i < x.1) :
    (numberLines (A ++ dumpMapping defaultOptions i m) n).takeWhile
        (fun l => decide (i < l.indent)) =
      numberLines A n ∧
    (numberLines (A ++ dumpMapping defaultOptions i m) n).dropWhile
        (fun l => decide (i < l.indent)) =
      numberLines (dumpMapping defaultOptions i m) (n + A.length) := by
  rw [numberLines_append]
  apply takeWhile_append_all
  · intro x hx
    have := hA _ (mem_numberLines hx)
    simpa using this
  · intro b hb
    by_cases hm : m = .nil
    · subst hm
      simp [dumpMapping, numberLines] at hb
    · obtain ⟨c, hc⟩ := dump_head_indent (d := m) i hm
      cases hd : dumpMapping defaultOptions i m with
      | nil => rw [hd] at hb; simp [numberLines] at hb
      | cons x xs =>
        rw [hd] at hc hb
        simp only [List.head?_cons, Option.some.injEq] at hc
        subst hc
        rw [numberLines] at hb
        simp only [List.head?_cons, Option.some.injEq] at hb
        subst hb
        simp

theorem dump_content_ok {d : Mapping} (hwf : WF d = true) (i : Nat) :
    ∀ x ∈ dumpMapping defaultOptions i d, x.2 ≠ [] ∧ x.2.head? ≠ some ' ' ∧
      '\n' ∉ x.2 := by
  induction d generalizing i with
  | nil => simp [dumpMapping]
  | scalarE c k v rest ih =>
    rw [WF] at hwf
    simp only [Bool.and_eq_true] at hwf
    obtain ⟨⟨⟨hc, hk⟩, hv⟩, hr⟩ := hwf
    obtain ⟨hk1, hk2, hk3, hk4, hk5, hk6⟩ := okKey_spec hk
    obtain ⟨hv1, hv2, hv3⟩ := okScalar_spec hv
    intro x hx
    rw [dumpMapping] at hx
    rcases List.mem_append.mp hx with h1 | h1
    · cases c with
      | none => simp [commentLines] at h1
      | some t =>
        simp only [commentLines, List.mem_singleton] at h1
        subst h1
        refine ⟨by simp, by simp, ?_⟩
        intro hm
        rcases List.mem_cons.mp hm with h2 | h2
        · cases h2
        · exact okComment_spec hc h2
    · rcases List.mem_cons.mp h1 with h2 | h2
      · subst h2
        refine ⟨by simp, ?_, ?_⟩
        · cases k with
          | nil => exact absurd rfl hk1
          | cons a as =>
            simp only [List.cons_append, List.head?_cons]
            simpa using hk4
        · intro hm
          rcases List.mem_append.mp hm with h3 | h3
          · exact hk6 h3
          · rcases List.mem_cons.mp h3 with h4 | h4
            · cases h4
            · rcases List.mem_cons.mp h4 with h5 | h5
              · cases h5
              · exact hv3 h5
      · exact ih hr i x h2
  | seqE c k items rest ih =>
    rw [WF] at hwf
    simp only [Bool.and_eq_true] at hwf
    obtain ⟨⟨⟨⟨hc, hk⟩, hne⟩, hall⟩, hr⟩ := hwf
    obtain ⟨hk1, hk2, hk3, hk4, hk5, hk6⟩ := okKey_spec hk
    intro x hx
    rw [dumpMapping] at hx
    rcases List.mem_append.mp hx with h1 | h1
    · cases c with
      | none => simp [commentLines] at h1
      | some t =>
        simp only [commentLines, List.mem_singleton] at h1
        subst h1
        refine ⟨by simp, by simp, ?_⟩
        intro hm
        rcases List.mem_cons.mp hm with h2 | h2
        · cases h2
        · exact okComment_spec hc h2
    · rcases List.mem_cons.mp h1 with h2 | h2
      · subst h2
        refine ⟨by simp, ?_, ?_⟩
        · cases k with
          | nil => exact absurd rfl hk1
          | cons a as =>
            simp only [List.cons_append, List.head?_cons]
            simpa using hk4
        · intro hm
          rcases List.mem_append.mp hm with h3 | h3
          · exact hk6 h3
          · rcases List.mem_cons.mp h3 with h4 | h4
            · cases h4
            · simp at h4
      · rcases List.mem_append.mp h2 with h3 | h3
        · obtain ⟨s, hs1, hs2⟩ := List.mem_map.mp h3
          have hitem : okItem s = true := by
            have := List.all_eq_true.mp hall
            exact this s hs1
          obtain ⟨hi1, hi2⟩ := okItem_spec hitem
          rw [← hs2]
          refine ⟨by simp [seqItemLine], by simp [seqItemLine], ?_⟩
          intro hm
          simp only [seqItemLine] at hm
          rcases List.mem_cons.mp hm with h4 | h4
          · cases h4
          · rcases List.mem_cons.mp h4 with h5 | h5
            · cases h5
            · exact hi2 h5
        · exact ih hr i x h3
  | mapE c k sub rest ihsub ihrest =>
    rw [WF] at hwf
    simp only [Bool.and_eq_true] at hwf
    obtain ⟨⟨⟨⟨hc, hk⟩, hnil⟩, hsub⟩, hr⟩ := hwf
    obtain ⟨hk1, hk2, hk3, hk4, hk5, hk6⟩ := okKey_spec hk
    intro x hx
    rw [dumpMapping] at hx
    rcases List.mem_append.mp hx with h1 | h1
    · cases c with
      | none => simp [commentLines] at h1
      | some t =>
        simp only [commentLines, List.mem_singleton] at h1
        subst h1
        refine ⟨by simp, by simp, ?_⟩
        intro hm
        rcases List.mem_cons.mp hm with h2 | h2
        · cases h2
        · exact okComment_spec hc h2
    · rcases List.mem_cons.mp h1 with h2 | h2
      · subst h2
        refine ⟨by simp, ?_, ?_⟩
        · cases k with
          | nil => exact absurd rfl hk1
          | cons a as =>
            simp only [List.cons_append, List.head?_cons]
            simpa using hk4
        · intro hm
          rcases List.mem_append.mp hm with h3 | h3
          · exact hk6 h3
          · rcases List.mem_cons.mp h3 with h4 | h4
            · cases h4
            · simp at h4
      · rcases List.mem_append.mp h2 with h3 | h3
        · exact ihsub hsub _ x h3
        · exact ihrest hr i x h3

theorem dump_head_content {d : Mapping} (hwf : WF d = true) (h : d ≠ .nil)
    (i : Nat) :
    ∃ c, (dumpMapping defaultOptions i d).head? = some (i, c) ∧
      c.head? ≠ some '-' := by
  cases d with
  | nil => exact absurd rfl h
  | scalarE c k v rest =>
    rw [WF] at hwf
    simp only [Bool.and_eq_true] at hwf
    obtain ⟨hk1, hk2, _, _, _, _⟩ := okKey_spec hwf.1.1.2
    cases c with
    | none =>
      refine ⟨_, rfl, ?_⟩
      cases k with
      | nil => exact absurd rfl hk1
      | cons a as => simpa using hk2
    | some t => exact ⟨_, rfl, by simp⟩
  | seqE c k items rest =>
    rw [WF] at hwf
    simp only [Bool.and_eq_true] at hwf
    obtain ⟨hk1, hk2, _, _, _, _⟩ := okKey_spec hwf.1.1.1.2
    cases c with
    | none =>
      refine ⟨_, rfl, ?_⟩
      cases k with
      | nil => exact absurd rfl hk1
      | cons a as => simpa using hk2
    | some t => exact ⟨_, rfl, by simp⟩
  | mapE c k sub rest =>
    rw [WF] at hwf
    simp only [Bool.and_eq_true] at hwf
    obtain ⟨hk1, hk2, _, _, _, _⟩ := okKey_spec hwf.1.1.1.2
    cases c with
    | none =>
      refine ⟨_, rfl, ?_⟩
      cases k with
      | nil => exact absurd rfl hk1
      | cons a as => simpa using hk2
    | some t => exact ⟨_, rfl, by simp⟩

theorem parseSeqLines_dump (items : List (List Char)) (i n : Nat)
    (hall : items.all okItem = true) :
    parseSeqLines (i + defaultOptions.sequenceOffset)
        (numberLines (items.map (seqItemLine defaultOptions i)) n) =
      .ok items := by
  induction items generalizing n with
  | nil => simp [numberLines, parseSeqLines]
  | cons s ss ih =>
    have hs : okItem s = true := by
      have := List.all_eq_true.mp hall
      exact this s (by simp)
    have hss : ss.all okItem = true := by
      rw [List.all_eq_true] at hall ⊢
      exact fun x hx => hall x (by simp [hx])
    obtain ⟨hs1, _⟩ := okItem_spec hs
    have hdrop : (' ' :: s).dropWhile (· = ' ') = s := by
      rw [List.dropWhile_cons_of_pos (by simp)]
      exact dropWhile_eq_self_of_head (fun a ha => by
        simp only [decide_eq_false_iff_not]
        intro e
        exact hs1 (by rw [ha, e]))
    rw [List.map_cons, numberLines, parseSeqLines]
    simp only [seqItemLine]
    rw [if_neg (by simp)]
    simp only [List.head?_cons]
    rw [if_pos (by simp)]
    rw [ih (n + 1) hss, hdrop]

theorem parse_dump (d : Mapping) :
    ∀ (i n fuel : Nat), WF d = true →
      (dumpMapping defaultOptions i d).length < fuel →
      parseBlock defaultOptions fuel i
          (numberLines (dumpMapping defaultOptions i d) n) =
        .ok d := by
  induction d with
  | nil =>
    intro i n fuel _ hlen
    cases fuel with
    | zero => simp [dumpMapping] at hlen
    | succ f => simp [dumpMapping, numberLines, parseBlock]
  | scalarE c k v rest ih =>
    intro i n fuel hwf hlen
    rw [WF] at hwf
    simp only [Bool.and_eq_true] at hwf
    obtain ⟨⟨⟨hc, hk⟩, hv⟩, hr⟩ := hwf
    obtain ⟨hk1, hk2, hk3, hk4, hk5, hk6⟩ := okKey_spec hk
    obtain ⟨hv1, hv2, hv3⟩ := okScalar_spec hv
    have hsplit : splitColon (k ++ ':' :: ' ' :: v) = some (k, ' ' :: v) :=
      splitColon_append hk5
    have hdropv : (' ' :: v).dropWhile (· = ' ') = v := by
      rw [List.dropWhile_cons_of_pos (by simp)]
      exact dropWhile_eq_self_of_head (fun a ha => by
        simp only [decide_eq_false_iff_not]
        intro e; exact hv2 (by rw [ha, e]))
    have hhash : ((k ++ ':' :: ' ' :: v).head? == some '#') = false := by
      rw [beq_eq_false_iff_ne]
      cases k with
      | nil => exact absurd rfl hk1
      | cons a as => simpa using hk3
    have hkE : k.isEmpty = false := by simpa [List.isEmpty_iff] using hk1
    have hkdash : (k.head? == some '-') = false := by
      rw [beq_eq_false_iff_ne]; exact hk2
    have hvE : v.isEmpty = false := by simpa [List.isEmpty_iff] using hv1
    cases c with
    | none =>
      rw [dumpMapping] at hlen ⊢
      simp only [commentLines, List.nil_append] at hlen ⊢
      rw [List.length_cons] at hlen
      cases fuel with
      | zero => omega
      | succ f =>
        have hihr : parseBlock defaultOptions f i
            (numberLines (dumpMapping defaultOptions i rest) (n + 1)) = .ok rest :=
          ih i (n + 1) f hr (by omega)
        have htw := takeWhile_dump_nil rest i (n + 1)
        rw [numberLines, parseBlock]
        simp only [takeEntryHead, hhash, if_neg (by simp : ¬ (i ≠ i)),
          Bool.false_eq_true, if_false]
        rw [hsplit]
        simp only [hkE, hkdash, hdropv, hvE, htw.1, htw.2, hihr,
          Bool.false_eq_true, if_false, List.isEmpty_nil]
        simp
    | some t =>
      rw [dumpMapping] at hlen ⊢
      simp only [commentLines, List.singleton_append, List.cons_append,
        List.nil_append, List.length_cons] at hlen ⊢
      cases fuel with
      | zero => omega
      | succ f =>
        have hihr : parseBlock defaultOptions f i
            (numberLines (dumpMapping defaultOptions i rest) (n + 1 + 1)) = .ok rest :=
          ih i (n + 1 + 1) f hr (by omega)
        have htw := takeWhile_dump_nil rest i (n + 1 + 1)
        rw [numberLines, numberLines, parseBlock]
        simp only [takeEntryHead, if_neg (by simp : ¬ (i ≠ i)), List.head?_cons,
          beq_self_eq_true, if_pos, hhash, Bool.not_false, Bool.and_true,
          decide_eq_true_eq, List.tail_cons]
        rw [hsplit]
        simp only [hkE, hkdash, hdropv, hvE, htw.1, htw.2, hihr,
          Bool.false_eq_true, if_false, List.isEmpty_nil]
        simp
  | seqE c k items rest ih =>
    intro i n fuel hwf hlen
    rw [WF] at hwf
    simp only [Bool.and_eq_true] at hwf
    obtain ⟨⟨⟨⟨hc, hk⟩, hneI⟩, hall⟩, hr⟩ := hwf
    obtain ⟨hk1, hk2, hk3, hk4, hk5, hk6⟩ := okKey_spec hk
    have hsplit : splitColon (k ++ [':']) = some (k, []) := splitColon_append hk5
    have hhash : ((k ++ [':']).head? == some '#') = false := by
      rw [beq_eq_false_iff_ne]
      cases k with
      | nil => exact absurd rfl hk1
      | cons a as => simpa using hk3
    have hkE : k.isEmpty = false := by simpa [List.isEmpty_iff] using hk1
    have hkdash : (k.head? == some '-') = false := by
      rw [beq_eq_false_iff_ne]; exact hk2
    have hA : ∀ x ∈ items.map (seqItemLine defaultOptions i), i < x.1 := by
      intro x hx
      obtain ⟨s, _, hs⟩ := List.mem_map.mp hx
      rw [← hs]
      simp [seqItemLine, defaultOptions]
    cases items with
    | nil => simp at hneI
    | cons s ss =>
      cases c with
      | none =>
        rw [dumpMapping] at hlen ⊢
        simp only [commentLines, List.nil_append] at hlen ⊢
        rw [List.length_cons, List.length_append, List.length_map] at hlen
        cases fuel with
        | zero => omega
        | succ f =>
          have hcs := child_split ((s :: ss).map (seqItemLine defaultOptions i))
            rest i (n + 1) hA
          have hseq := parseSeqLines_dump (s :: ss) i (n + 1) hall
          have hihr : parseBlock defaultOptions f i
              (numberLines (dumpMapping defaultOptions i rest)
                (n + 1 + ((s :: ss).map (seqItemLine defaultOptions i)).length)) =
              .ok rest :=
            ih i _ f hr (by omega)
          rw [numberLines, parseBlock]
          simp only [takeEntryHead, if_neg (by simp : ¬ (i ≠ i)), hhash,
            Bool.false_eq_true, if_false]
          rw [hsplit]
          simp only [hkE, hkdash, Bool.false_eq_true, if_false,
            List.dropWhile_nil, List.isEmpty_nil, if_true]
          rw [hcs.1, hcs.2]
          rw [hseq, hihr]
          simp only [List.map_cons, numberLines, seqItemLine, List.head?_cons,
            beq_self_eq_true, if_pos]
      | some t =>
        rw [dumpMapping] at hlen ⊢
        simp only [commentLines, List.singleton_append, List.cons_append,
          List.nil_append] at hlen ⊢
        rw [List.length_cons, List.length_cons, List.length_append,
          List.length_map] at hlen
        cases fuel with
        | zero => omega
        | succ f =>
          have hcs := child_split ((s :: ss).map (seqItemLine defaultOptions i))
            rest i (n + 1 + 1) hA
          have hseq := parseSeqLines_dump (s :: ss) i (n + 1 + 1) hall
          have hihr : parseBlock defaultOptions f i
              (numberLines (dumpMapping defaultOptions i rest)
                (n + 1 + 1 + ((s :: ss).map (seqItemLine defaultOptions i)).length)) =
              .ok rest :=
            ih i _ f hr (by omega)
          rw [numberLines, numberLines, parseBlock]
          simp only [takeEntryHead, if_neg (by simp : ¬ (i ≠ i)), List.head?_cons,
            beq_self_eq_true, if_pos, hhash, Bool.not_false, Bool.and_true,
            decide_eq_true_eq, List.tail_cons]
          rw [hsplit]
          simp only [hkE, hkdash, Bool.false_eq_true, if_false,
            List.dropWhile_nil, List.isEmpty_nil, if_true]
          rw [hcs.1, hcs.2]
          rw [hseq, hihr]
          simp only [List.map_cons, numberLines, seqItemLine, List.head?_cons,
            beq_self_eq_true, if_pos]
  | mapE c k sub rest ihsub ihrest =>
    intro i n fuel hwf hlen
    rw [WF] at hwf
    simp only [Bool.and_eq_true] at hwf
    obtain ⟨⟨⟨⟨hc, hk⟩, hsnil⟩, hsub⟩, hr⟩ := hwf
    obtain ⟨hk1, hk2, hk3, hk4, hk5, hk6⟩ := okKey_spec hk
    have hsubne : sub ≠ .nil := by
      intro e
      rw [e] at hsnil
      simp [Mapping.isNil] at hsnil
    have hsplit : splitColon (k ++ [':']) = some (k, []) := splitColon_append hk5
    have hhash : ((k ++ [':']).head? == some '#') = false := by
      rw [beq_eq_false_iff_ne]
      cases k with
      | nil => exact absurd rfl hk1
      | cons a as => simpa using hk3
    have hkE : k.isEmpty = false := by simpa [List.isEmpty_iff] using hk1
    have hkdash : (k.head? == some '-') = false := by
      rw [beq_eq_false_iff_ne]; exact hk2
    have hA : ∀ x ∈ dumpMapping defaultOptions (i + defaultOptions.mappingIndent) sub,
        i < x.1 := by
      intro x hx
      have := dump_indent_ge sub (i + defaultOptions.mappingIndent) x hx
      have h2 : defaultOptions.mappingIndent = 2 := rfl
      omega
    obtain ⟨cc, hcc, hccdash⟩ :=
      dump_head_content hsub hsubne (i + defaultOptions.mappingIndent)
    have hccd : (cc.head? == some '-') = false := by
      rw [beq_eq_false_iff_ne]; exact hccdash
    cases c with
    | none =>
      rw [dumpMapping] at hlen ⊢
      simp only [commentLines, List.nil_append] at hlen ⊢
      rw [List.length_cons, List.length_append] at hlen
      cases fuel with
      | zero => omega
      | succ f =>
        have hcs := child_split
          (dumpMapping defaultOptions (i + defaultOptions.mappingIndent) sub)
          rest i (n + 1) hA
        have hihsub := ihsub (i + defaultOptions.mappingIndent) (n + 1) f hsub
          (by omega)
        have hihr : parseBlock defaultOptions f i
            (numberLines (dumpMapping defaultOptions i rest)
              (n + 1 +
                (dumpMapping defaultOptions (i + defaultOptions.mappingIndent)
                  sub).length)) =
            .ok rest :=
          ihrest i _ f hr (by omega)
        rw [numberLines, parseBlock]
        simp only [takeEntryHead, if_neg (by simp : ¬ (i ≠ i)), hhash,
          Bool.false_eq_true, if_false]
        rw [hsplit]
        simp only [hkE, hkdash, Bool.false_eq_true, if_false,
          List.dropWhile_nil, List.isEmpty_nil, if_true]
        rw [hcs.1, hcs.2]
        rw [hihr]
        cases hd : dumpMapping defaultOptions (i + defaultOptions.mappingIndent) sub with
        | nil => rw [hd] at hcc; simp at hcc
        | cons x xs =>
          rw [hd] at hcc hihsub
          simp only [List.head?_cons, Option.some.injEq] at hcc
          subst hcc
          rw [numberLines] at hihsub ⊢
          simp only [List.head?_cons, hccd, Bool.false_eq_true, if_false, hihsub]
    | some t =>
      rw [dumpMapping] at hlen ⊢
      simp only [commentLines, List.singleton_append, List.cons_append,
        List.nil_append] at hlen ⊢
      rw [List.length_cons, List.length_cons, List.length_append] at hlen
      cases fuel with
      | zero => omega
      | succ f =>
        have hcs := child_split
          (dumpMapping defaultOptions (i + defaultOptions.mappingIndent) sub)
          rest i (n + 1 + 1) hA
        have hihsub := ihsub (i + defaultOptions.mappingIndent) (n + 1 + 1) f hsub
          (by omega)
        have hihr : parseBlock defaultOptions f i
            (numberLines (dumpMapping defaultOptions i rest)
              (n + 1 + 1 +
                (dumpMapping defaultOptions (i + defaultOptions.mappingIndent)
                  sub).length)) =
            .ok rest :=
          ihrest i _ f hr (by omega)
        rw [numberLines, numberLines, parseBlock]
        simp only [takeEntryHead, if_neg (by simp : ¬ (i ≠ i)), List.head?_cons,
          beq_self_eq_true, if_pos, hhash, Bool.not_false, Bool.and_true,
          decide_eq_true_eq, List.tail_cons]
        rw [hsplit]
        simp only [hkE, hkdash, Bool.false_eq_true, if_false,
          List.dropWhile_nil, List.isEmpty_nil, if_true]
        rw [hcs.1, hcs.2]
        rw [hihr]
        cases hd : dumpMapping defaultOptions (i + defaultOptions.mappingIndent) sub with
        | nil => rw [hd] at hcc; simp at hcc
        | cons x xs =>
          rw [hd] at hcc hihsub
          simp only [List.head?_cons, Option.some.injEq] at hcc
          subst hcc
          rw [numberLines] at hihsub ⊢
          simp only [List.head?_cons, hccd, Bool.false_eq_true, if_false, hihsub]

theorem parseSeqLines_wf {j : Nat} {lines : List Line} {items : List (List Char)}
    (hyg : ∀ l ∈ lines, l.content.head? ≠ some ' ' ∧ '\n' ∉ l.content)
    (h : parseSeqLines j lines = .ok items) :
    items.all okItem = true ∧ (lines ≠ [] → items ≠ []) := by
  induction lines generalizing items with
  | nil =>
    rw [parseSeqLines] at h
    simp only [Except.ok.injEq] at h
    subst h
    exact ⟨rfl, fun hne => absurd rfl hne⟩
  | cons ln rest ih =>
    rw [parseSeqLines] at h
    split at h
    · cases h
    · split at h
      · rename_i cs heq
        split at h
        · split at h
          · rename_i items2 hrec
            simp only [Except.ok.injEq] at h
            subst h
            obtain ⟨hh, hnl⟩ := hyg ln (by simp)
            have hnlcs : '\n' ∉ cs := by
              intro hm
              exact hnl (by rw [heq]; simp [hm])
            have hitem : okItem (cs.dropWhile (· = ' ')) = true := by
              simp only [okItem, Bool.and_eq_true, bne_iff_ne, Bool.not_eq_true']
              constructor
              · intro e
                have := dropWhile_head_not e
                simp at this
              · exact contains_eq_false_iff.mpr
                  (fun hm => hnlcs (List.dropWhile_subset _ hm))
            obtain ⟨hall2, _⟩ := ih (fun l hl => hyg l (by simp [hl])) hrec
            refine ⟨?_, fun _ => by simp⟩
            rw [List.all_cons, hitem, hall2]
            rfl
          · cases h
        · cases h
      · cases h

theorem takeEntryHead_ok {i : Nat} {ln : Line} {rest : List Line}
    {cmt : Option (List Char)} {kln : Line} {rest2 : List Line}
    (h : takeEntryHead i ln rest = .ok (cmt, kln, rest2)) :
    (kln = ln ∨ kln ∈ rest) ∧ (∀ l ∈ rest2, l ∈ rest) ∧
      kln.content.head? ≠ some '#' ∧
      (cmt = none ∨ cmt = some ln.content.tail) := by
  unfold takeEntryHead at h
  split at h
  · split at h
    · cases h
    · rename_i ln2 rest3
      split at h
      · rename_i hcond
        simp only [Except.ok.injEq, Prod.mk.injEq] at h
        obtain ⟨h1, h2, h3⟩ := h
        subst h1; subst h2; subst h3
        simp only [Bool.and_eq_true, Bool.not_eq_true', beq_eq_false_iff_ne] at hcond
        exact ⟨Or.inr (by simp), fun l hl => by simp [hl], hcond.2, Or.inr rfl⟩
      · cases h
  · rename_i hcond
    simp only [Except.ok.injEq, Prod.mk.injEq] at h
    obtain ⟨h1, h2, h3⟩ := h
    subst h1; subst h2; subst h3
    exact ⟨Or.inl rfl, fun l hl => hl, by simpa using hcond, Or.inl rfl⟩

theorem okKey_build {k : List Char} (h1 : k ≠ []) (h2 : k.head? ≠ some '-')
    (h3 : k.head? ≠ some '#') (h4 : k.head? ≠ some ' ') (h5 : ':' ∉ k)
    (h6 : '\n' ∉ k) : okKey k = true := by
  simp only [okKey, Bool.and_eq_true, Bool.not_eq_true', bne_iff_ne]
  refine ⟨⟨⟨⟨⟨?_, h2⟩, h3⟩, h4⟩, contains_eq_false_iff.mpr h5⟩,
    contains_eq_false_iff.mpr h6⟩
  cases k with
  | nil => exact absurd rfl h1
  | cons a as => rfl

theorem okScalar_build {v : List Char} (h1 : v ≠ []) (h2 : v.head? ≠ some ' ')
    (h3 : '\n' ∉ v) : okScalar v = true := by
  simp only [okScalar, Bool.and_eq_true, Bool.not_eq_true', bne_iff_ne]
  refine ⟨⟨?_, h2⟩, contains_eq_false_iff.mpr h3⟩
  cases v with
  | nil => exact absurd rfl h1
  | cons a as => rfl

theorem okComment_build {cmt : Option (List Char)} {ln : Line}
    (hnl : '\n' ∉ ln.content)
    (hc : cmt = none ∨ cmt = some ln.content.tail) : okComment cmt = true := by
  rcases hc with h | h
  · subst h; rfl
  · subst h
    simp only [okComment, Bool.not_eq_true']
    refine contains_eq_false_iff.mpr ?_
    intro hm
    apply hnl
    cases hl : ln.content with
    | nil => rw [hl] at hm; simp at hm
    | cons a as =>
      rw [hl] at hm
      simp only [List.tail_cons] at hm
      exact List.mem_cons_of_mem _ hm

theorem parse_wf (fuel : Nat) :
    ∀ {i : Nat} {lines : List Line} {m : Mapping},
      (∀ l ∈ lines, l.content.head? ≠ some ' ' ∧ '\n' ∉ l.content) →
      parseBlock defaultOptions fuel i lines = .ok m →
      WF m = true ∧ (lines ≠ [] → m ≠ .nil) := by
  induction fuel with
  | zero =>
    intro i lines m hyg h
    simp [parseBlock] at h
  | succ f ih =>
    intro i lines m hyg h
    cases lines with
    | nil =>
      rw [parseBlock] at h
      simp only [Except.ok.injEq] at h
      subst h
      exact ⟨rfl, fun hne => absurd rfl hne⟩
    | cons ln rest =>
      rw [parseBlock] at h
      split at h
      · cases h
      · split at h
        · cases h
        · rename_i cmt kln rest2 hteh
          obtain ⟨hklnmem, hrest2mem, hklnhash, hcmt⟩ := takeEntryHead_ok hteh
          have hklnhyg : kln.content.head? ≠ some ' ' ∧ '\n' ∉ kln.content := by
            rcases hklnmem with h1 | h1
            · subst h1; exact hyg kln (by simp)
            · exact hyg kln (by simp [h1])
          have hlnhyg := hyg ln (by simp)
          have hr2hyg : ∀ l ∈ rest2,
              l.content.head? ≠ some ' ' ∧ '\n' ∉ l.content :=
            fun l hl => hyg l (by simp [hrest2mem l hl])
          split at h
          · cases h
          · rename_i k r hsc
            obtain ⟨hkc, hknc⟩ := splitColon_ok hsc
            split at h
            · cases h
            · split at h
              · cases h
              · rename_i hkne hkdash
                have hk1 : k ≠ [] := by
                  intro e
                  exact hkne (by simp [e])
                have hk2 : k.head? ≠ some '-' := by
                  intro e
                  exact hkdash (by simp [e])
                have hkheadc : ∀ x, k.head? = some x →
                    kln.content.head? = some x := by
                  intro x hx
                  cases k with
                  | nil => simp at hx
                  | cons a as =>
                    simp only [List.head?_cons, Option.some.injEq] at hx
                    subst hx
                    rw [hkc]
                    rfl
                have hk3 : k.head? ≠ some '#' := by
                  intro e
                  exact hklnhash (hkheadc _ e)
                have hk4 : k.head? ≠ some ' ' := by
                  intro e
                  exact hklnhyg.1 (hkheadc _ e)
                have hk6 : '\n' ∉ k := by
                  intro hm
                  exact hklnhyg.2 (by rw [hkc]; simp [hm])
                have hokk : okKey k = true :=
                  okKey_build hk1 hk2 hk3 hk4 hknc hk6
                have hokc : okComment cmt = true :=
                  okComment_build hlnhyg.2 hcmt
                have hchyg : ∀ l ∈ rest2.takeWhile (fun l => decide (i < l.indent)),
                    l.content.head? ≠ some ' ' ∧ '\n' ∉ l.content :=
                  fun l hl => hr2hyg l (List.takeWhile_subset _ hl)
                have hshyg : ∀ l ∈ rest2.dropWhile (fun l => decide (i < l.indent)),
                    l.content.head? ≠ some ' ' ∧ '\n' ∉ l.content :=
                  fun l hl => hr2hyg l (List.dropWhile_subset _ hl)
                dsimp only at h
                split at h
                · -- nested value: v is empty
                  split at h
                  · cases h
                  · rename_i cl tail hcb
                    split at h
                    · -- sequence child
                      split at h
                      · cases h
                      · rename_i items hseq
                        split at h
                        · cases h
                        · rename_i m2 hm2
                          simp only [Except.ok.injEq] at h
                          subst h
                          obtain ⟨hwfm2, _⟩ := ih hshyg hm2
                          obtain ⟨hallitems, hitemsne⟩ :=
                            parseSeqLines_wf hchyg hseq
                          refine ⟨?_, fun _ => by simp⟩
                          rw [WF]
                          simp only [Bool.and_eq_true]
                          refine ⟨⟨⟨⟨hokc, hokk⟩, ?_⟩, hallitems⟩, hwfm2⟩
                          have : items ≠ [] := hitemsne (by rw [hcb]; simp)
                          simp only [Bool.not_eq_true']
                          cases items with
                          | nil => exact absurd rfl this
                          | cons a as => rfl
                    · -- nested mapping child
                      split at h
                      · cases h
                      · rename_i sub hsub
                        split at h
                        · cases h
                        · rename_i m2 hm2
                          simp only [Except.ok.injEq] at h
                          subst h
                          obtain ⟨hwfsub, hsubne⟩ := ih hchyg hsub
                          obtain ⟨hwfm2, _⟩ := ih hshyg hm2
                          refine ⟨?_, fun _ => by simp⟩
                          rw [WF]
                          simp only [Bool.and_eq_true]
                          refine ⟨⟨⟨⟨hokc, hokk⟩, ?_⟩, hwfsub⟩, hwfm2⟩
                          have hne : sub ≠ .nil := hsubne (by rw [hcb]; simp)
                          simp only [Bool.not_eq_true']
                          cases sub with
                          | nil => exact absurd rfl hne
                          | scalarE a b c d => rfl
                          | seqE a b c d => rfl
                          | mapE a b c d => rfl
                · -- scalar value
                  rename_i hvne
                  split at h
                  · split at h
                    · cases h
                    · rename_i m2 hm2
                      simp only [Except.ok.injEq] at h
                      subst h
                      obtain ⟨hwfm2, _⟩ := ih hshyg hm2
                      have hv1 : r.dropWhile (· = ' ') ≠ [] := by
                        intro e
                        exact hvne (by simp [e])
                      have hv2 : (r.dropWhile (· = ' ')).head? ≠ some ' ' := by
                        intro e
                        have := dropWhile_head_not e
                        simp at this
                      have hv3 : '\n' ∉ r.dropWhile (· = ' ') := by
                        intro hm
                        apply hklnhyg.2
                        rw [hkc]
                        have : '\n' ∈ r := List.dropWhile_subset _ hm
                        simp [this]
                      refine ⟨?_, fun _ => by simp⟩
                      rw [WF]
                      simp only [Bool.and_eq_true]
                      exact ⟨⟨⟨hokc, hokk⟩, okScalar_build hv1 hv2 hv3⟩, hwfm2⟩
                  · cases h

/-! Document-level lemmas. -/

theorem parseDoc_wf {t : List Char} {d : Mapping}
    (h : parseDoc defaultOptions t = .ok d) :
    WF d = true ∧ (mkLines (splitNL t) 1 ≠ [] → d ≠ .nil) := by
  unfold parseDoc at h
  exact parse_wf _ (mkLines_hygiene (fun ch hch => splitNL_no_nl ch hch)) h

theorem mkLines_render {d : Mapping} (hwf : WF d = true) :
    mkLines (splitNL (renderDoc defaultOptions d)) 1 =
      numberLines (dumpMapping defaultOptions 0 d) 1 := by
  unfold renderDoc
  rw [splitNL_unlines, mkLines_spaces]
  · intro x hx
    obtain ⟨h1, h2, _⟩ := dump_content_ok hwf 0 x hx
    exact ⟨h1, h2⟩
  · intro l hl
    obtain ⟨p, hp, hpe⟩ := List.mem_map.mp hl
    obtain ⟨_, _, h3⟩ := dump_content_ok hwf 0 p hp
    rw [← hpe]
    intro hm
    rcases List.mem_append.mp hm with h4 | h4
    · have := List.eq_of_mem_replicate h4
      cases this
    · exact h3 h4

theorem parseDoc_render {d : Mapping} (hwf : WF d = true) :
    parseDoc defaultOptions (renderDoc defaultOptions d) = .ok d := by
  unfold parseDoc
  dsimp only
  rw [mkLines_render hwf, length_numberLines]
  exact parse_dump d 0 1 _ hwf (by omega)

theorem mem_unlines {L : List (List Char)} {x : List Char} {c : Char}
    (hx : x ∈ L) (hc : c ∈ x) : c ∈ unlines L := by
  induction L with
  | nil => simp at hx
  | cons l ls ih =>
    show c ∈ l ++ '\n' :: unlines ls
    rcases List.mem_cons.mp hx with h | h
    · subst h
      exact List.mem_append_left _ hc
    · exact List.mem_append_right _ (List.mem_cons_of_mem _ (ih h))

theorem dump_has_colon {d : Mapping} (h : d ≠ .nil) :
    ∃ x ∈ dumpMapping defaultOptions 0 d, ':' ∈ x.2 := by
  cases d with
  | nil => exact absurd rfl h
  | scalarE c k v rest =>
    refine ⟨(0, k ++ ':' :: ' ' :: v), ?_, by simp⟩
    cases c <;> simp [dumpMapping, commentLines]
  | seqE c k items rest =>
    refine ⟨(0, k ++ [':']), ?_, by simp⟩
    cases c <;> simp [dumpMapping, commentLines]
  | mapE c k sub rest =>
    refine ⟨(0, k ++ [':']), ?_, by simp⟩
    cases c <;> simp [dumpMapping, commentLines]

theorem render_strip_ne {d : Mapping} (h : d ≠ .nil) :
    pyStrip (renderDoc defaultOptions d) ≠ [] := by
  obtain ⟨x, hx, hcx⟩ := dump_has_colon h
  apply pyStrip_ne_nil (c := ':')
  · unfold renderDoc
    apply mem_unlines (x := spaces x.1 ++ x.2)
    · exact List.mem_map_of_mem _ hx
    · simp [hcx]
  · rfl

theorem parse_ne_nil {t : List Char} {d : Mapping}
    (hst : pyStrip t ≠ []) (h : parseDoc defaultOptions t = .ok d) :
    d ≠ .nil := by
  have hex : ∃ c ∈ t, isPySpace c = false := by
    by_contra hno
    push_neg at hno
    apply hst
    apply pyStrip_eq_nil_iff.mpr
    intro c hc
    have := hno c hc
    simpa using this
  obtain ⟨c, hc, hcs⟩ := hex
  have hcn : c ≠ '\n' := by
    intro e
    subst e
    simp [isPySpace] at hcs
  have hcsp : c ≠ ' ' := by
    intro e
    subst e
    simp [isPySpace] at hcs
  obtain ⟨l, hl, hcl⟩ := mem_splitNL hc hcn
  have hlines : mkLines (splitNL t) 1 ≠ [] := by
    apply mkLines_ne_nil hl
    intro e
    have := List.dropWhile_eq_nil_iff.mp e c hcl
    simp only [decide_eq_true_eq] at this
    exact hcsp this
  exact (parseDoc_wf h).2 hlines

theorem format_formatted_inv {t u : String}
    (h : format defaultOptions t = .formatted u) :
    ∃ d, parseDoc defaultOptions t.data = .ok d ∧ WF d = true ∧ d ≠ .nil ∧
      u = String.mk (renderDoc defaultOptions d) := by
  unfold format at h
  by_cases hs : (pyStrip t.data).isEmpty
  · rw [if_pos hs] at h
    cases h
  · rw [if_neg hs] at h
    cases hp : parseDoc defaultOptions t.data with
    | error e => rw [hp] at h; cases h
    | ok d =>
      rw [hp] at h
      simp only [FormatResult.formatted.injEq] at h
      have hst : pyStrip t.data ≠ [] := by
        simpa [List.isEmpty_iff] using hs
      exact ⟨d, rfl, (parseDoc_wf hp).1, parse_ne_nil hst hp, h.symm⟩

theorem comment_adjacent {c k : List Char} {d : Mapping} :
    hasCommentedEntry c k d = true → ∀ i : Nat,
      ∃ A B j tail, dumpMapping defaultOptions i d =
        A ++ (j, '#' :: c) :: (j, k ++ ':' :: tail) :: B := by
  induction d with
  | nil => intro h; simp [hasCommentedEntry] at h
  | scalarE c2 k2 v rest ih =>
    intro h i
    rw [hasCommentedEntry] at h
    simp only [Bool.or_eq_true, Bool.and_eq_true, beq_iff_eq] at h
    rcases h with ⟨hc2, hk2⟩ | hrest
    · subst hc2; subst hk2
      exact ⟨[], dumpMapping defaultOptions i rest, i, ' ' :: v,
        by simp [dumpMapping, commentLines]⟩
    · obtain ⟨A, B, j, tail, hd⟩ := ih hrest i
      refine ⟨commentLines i c2 ++ (i, k2 ++ ':' :: ' ' :: v) :: A, B, j, tail, ?_⟩
      rw [dumpMapping, hd]
      simp [List.cons_append, List.append_assoc]
  | seqE c2 k2 items rest ih =>
    intro h i
    rw [hasCommentedEntry] at h
    simp only [Bool.or_eq_true, Bool.and_eq_true, beq_iff_eq] at h
    rcases h with ⟨hc2, hk2⟩ | hrest
    · subst hc2; subst hk2
      exact ⟨[], items.map (seqItemLine defaultOptions i) ++
        dumpMapping defaultOptions i rest, i, [],
        by simp [dumpMapping, commentLines]⟩
    · obtain ⟨A, B, j, tail, hd⟩ := ih hrest i
      refine ⟨commentLines i c2 ++ (i, k2 ++ [':']) ::
        items.map (seqItemLine defaultOptions i) ++ A, B, j, tail, ?_⟩
      rw [dumpMapping, hd]
      simp [List.cons_append, List.append_assoc]
  | mapE c2 k2 sub rest ihsub ihrest =>
    intro h i
    rw [hasCommentedEntry] at h
    simp only [Bool.or_eq_true, Bool.and_eq_true, beq_iff_eq] at h
    rcases h with (⟨hc2, hk2⟩ | hsub) | hrest
    · subst hc2; subst hk2
      exact ⟨[], dumpMapping defaultOptions (i + defaultOptions.mappingIndent) sub ++
        dumpMapping defaultOptions i rest, i, [],
        by simp [dumpMapping, commentLines]⟩
    · obtain ⟨A, B, j, tail, hd⟩ := ihsub hsub (i + defaultOptions.mappingIndent)
      refine ⟨commentLines i c2 ++ (i, k2 ++ [':']) :: A,
        B ++ dumpMapping defaultOptions i rest, j, tail, ?_⟩
      rw [dumpMapping, hd]
      simp [List.cons_append, List.append_assoc]
    · obtain ⟨A, B, j, tail, hd⟩ := ihrest hrest i
      refine ⟨commentLines i c2 ++ (i, k2 ++ [':']) ::
        dumpMapping defaultOptions (i + defaultOptions.mappingIndent) sub ++ A,
        B, j, tail, ?_⟩
      rw [dumpMapping, hd]
      simp [List.cons_append, List.append_assoc]

/-! Helper for the gutter-width loop. -/

theorem digitLoop_log (fuel : Nat) :
    ∀ c d : Nat, 1 ≤ c → c ≤ fuel → digitLoop fuel c d = d + Nat.log 10 c := by
  induction fuel with
  | zero => intro c d h1 h2; omega
  | succ f ih =>
    intro c d h1 h2
    rw [digitLoop]
    by_cases hc : c ≥ 10
    · rw [if_pos hc]
      have hdiv1 : 1 ≤ c / 10 := (Nat.le_div_iff_mul_le (by norm_num)).mpr (by omega)
      have hdivlt : c / 10 < c := Nat.div_lt_self (by omega) (by norm_num)
      rw [ih (c / 10) (d + 1) hdiv1 (by omega)]
      have hlog : Nat.log 10 (c / 10) = Nat.log 10 c - 1 := Nat.log_div_base 10 c
      have hpos : 0 < Nat.log 10 c := Nat.log_pos (by norm_num) (by omega)
      omega
    · rw [if_neg hc]
      rw [Nat.log_of_lt (by omega)]
      omega

/-- Claim C10: for every block count the digit-counting loop in
lineNumberAreaWidth terminates and the result is 10 plus the advance of
the digit nine times the decimal digit count of max 1 blockCount, which
equals floor log10 plus one. -/
theorem lineNumberAreaWidth_eq (n a : Nat) :
    lineNumberAreaWidth n a = 10 + a * (Nat.log 10 (max 1 n) + 1) ∧
    lineNumberAreaWidth n a = 10 + a * (Nat.digits 10 (max 1 n)).length := by
  have h1 : 1 ≤ max 1 n := le_max_left 1 n
  have hloop : digitLoop (max 1 n) (max 1 n) 1 = 1 + Nat.log 10 (max 1 n) :=
    digitLoop_log (max 1 n) (max 1 n) 1 h1 (le_refl _)
  have hmain : lineNumberAreaWidth n a = 10 + a * (Nat.log 10 (max 1 n) + 1) := by
    unfold lineNumberAreaWidth
    dsimp only
    rw [hloop]
    ring
  refine ⟨hmain, ?_⟩
  rw [hmain, Nat.digits_len 10 (max 1 n) (by norm_num) (by omega)]

/-- Claim C9: whenever save_file_as completes with a nonempty chosen path,
the stored current_file_path carries a YAML extension, equals the chosen
path when it already had one and the chosen path with .yaml appended
otherwise, and the subsequent save writes the buffer to exactly that
path. -/
theorem save_file_as_extension (st : EditorState) (p : String) (h : p ≠ "") :
    (EditorWindow.save_file_as p st).current_file_path =
        some (if endsWithYamlExt p then p else p ++ ".yaml") ∧
      ∃ q, (EditorWindow.save_file_as p st).current_file_path = some q ∧
        endsWithYamlExt q = true ∧
        (EditorWindow.save_file_as p st).disk = (q, st.buffer) :: st.disk ∧
        (EditorWindow.save_file_as p st).buffer = st.buffer := by
  unfold EditorWindow.save_file_as EditorWindow.save_file
  rw [if_neg h]
  dsimp only
  by_cases he : endsWithYamlExt p = true
  · rw [if_pos he]
    exact ⟨rfl, p, rfl, he, rfl, rfl⟩
  · rw [if_neg he]
    have hext : endsWithYamlExt (p ++ ".yaml") = true := by
      have hsuf : List.isSuffixOf ".yaml".data (p ++ ".yaml").data = true := by
        rw [String.data_append]
        simp only [List.isSuffixOf_iff_suffix]
        exact List.suffix_append _ _
      simp [endsWithYamlExt, hsuf]
    exact ⟨rfl, p ++ ".yaml", rfl, hext, rfl, rfl⟩

/-- Application of the save-as theorem at a concrete state and path. -/
theorem save_file_as_extension_witness :
    (EditorWindow.save_file_as "notes" ⟨none, "x: 1", []⟩).current_file_path =
        some (if endsWithYamlExt "notes" then "notes" else "notes" ++ ".yaml") ∧
      ∃ q, (EditorWindow.save_file_as "notes"
          ⟨none, "x: 1", []⟩).current_file_path = some q ∧
        endsWithYamlExt q = true ∧
        (EditorWindow.save_file_as "notes" ⟨none, "x: 1", []⟩).disk =
          (q, (⟨none, "x: 1", []⟩ : EditorState).buffer) ::
            (⟨none, "x: 1", []⟩ : EditorState).disk ∧
        (EditorWindow.save_file_as "notes" ⟨none, "x: 1", []⟩).buffer =
          (⟨none, "x: 1", []⟩ : EditorState).buffer :=
  save_file_as_extension ⟨none, "x: 1", []⟩ "notes" (by decide)

/-- Claim C8 (implicit): check_connection opens no file before both path
checks pass, reads the token file first, and never opens the config file
when the token file lacks its key; the trace of opened files is always a
prefix of token-then-config. -/
theorem check_connection_order (fs : FileSystem) (tp cp : String) :
    ((check_connection_run fs tp cp).2 = [] ∨
      (check_connection_run fs tp cp).2 = [tp] ∨
      (check_connection_run fs tp cp).2 = [tp, cp]) ∧
    ((tp = "" || !fs.pathExists tp) = true →
      check_connection_run fs tp cp = ((false, tokenNotFoundMsg), [])) ∧
    ((tp = "" || !fs.pathExists tp) = false →
      (cp = "" || !fs.pathExists cp) = true →
      check_connection_run fs tp cp = ((false, configNotFoundMsg), [])) ∧
    (∀ d, (tp = "" || !fs.pathExists tp) = false →
      (cp = "" || !fs.pathExists cp) = false →
      fs.readYaml tp = some (.loaded d) →
      (!d.truthy || !d.hasKey "QUALTRICS_APITOKEN") = true →
      check_connection_run fs tp cp = ((false, tokenKeyMissingMsg), [tp])) := by
  refine ⟨?_, ?_, ?_, ?_⟩
  · unfold check_connection_run
    by_cases h1 : (tp = "" || !fs.pathExists tp) = true
    · rw [if_pos h1]; simp
    · rw [if_neg h1]
      by_cases h2 : (cp = "" || !fs.pathExists cp) = true
      · rw [if_pos h2]; simp
      · rw [if_neg h2]
        cases hr : fs.readYaml tp with
        | none => simp
        | some o =>
          cases o with
          | unparsable e => simp
          | loaded d =>
            by_cases h3 : (!d.truthy || !d.hasKey "QUALTRICS_APITOKEN") = true
            · simp [h3]
            · simp [h3]
              cases hr2 : fs.readYaml cp with
              | none => simp
              | some o2 =>
                cases o2 with
                | unparsable e => simp
                | loaded d2 =>
                  right; right
                  split
                  all_goals first
                  | rfl
                  | (split <;> rfl)
                  | (rename_i heq; simp at heq)
  · intro h1
    unfold check_connection_run
    rw [if_pos h1]
  · intro h1 h2
    unfold check_connection_run
    rw [if_neg (by simp [h1]), if_pos h2]
  · intro d h1 h2 hr h3
    unfold check_connection_run
    rw [if_neg (by simp [h1]), if_neg (by simp [h2]), hr]
    simp [h3]

/-- Application of the check-order theorem: a missing token path opens no
file, and a token file lacking its key stops before the config file even
when the config file would not parse. -/
theorem check_connection_order_witness :
    check_connection_run ⟨[]⟩ "" "" = ((false, tokenNotFoundMsg), []) ∧
    check_connection_run
        ⟨[("t", .loaded (.mapping ["x"])), ("c", .unparsable "bad")]⟩ "t" "c" =
      ((false, tokenKeyMissingMsg), ["t"]) :=
  ⟨(check_connection_order ⟨[]⟩ "" "").2.1 (by decide),
    (check_connection_order
        ⟨[("t", .loaded (.mapping ["x"])), ("c", .unparsable "bad")]⟩ "t" "c").2.2.2
      (.mapping ["x"]) (by decide) (by decide) (by decide) (by decide)⟩

/-- Counterexample to claim C7 read as ordered guards: with a token file
that parses but lacks its key and a config file that does not parse, the
guards of the claim demand a parse-error message, but check_connection
returns the missing-key message, having never opened the config file. -/
theorem check_connection_claim_order_false :
    claimC7Holds ⟨[("t", FileOutcome.loaded (YamlData.mapping ["other"])),
        ("c", FileOutcome.unparsable "bad")]⟩ "t" "c" = false ∧
      check_connection ⟨[("t", FileOutcome.loaded (YamlData.mapping ["other"])),
        ("c", FileOutcome.unparsable "bad")]⟩ "t" "c" =
        (false, tokenKeyMissingMsg) := by decide

/-- Claim C7 as amended: the classification holds with the token file
checked fully, parse and key, before the config file is consulted. -/
theorem check_connection_matches_spec (fs : FileSystem) (tp cp : String) :
    check_connection fs tp cp = check_connection_spec fs tp cp := by
  unfold check_connection check_connection_run check_connection_spec
  by_cases h1 : (tp = "" || !fs.pathExists tp) = true
  · simp only [if_pos h1]
  · simp only [if_neg h1]
    by_cases h2 : (cp = "" || !fs.pathExists cp) = true
    · simp only [if_pos h2]
    · simp only [if_neg h2]
      cases hr : fs.readYaml tp with
      | none => rfl
      | some o =>
        cases o with
        | unparsable e => rfl
        | loaded d =>
          simp only [Bool.not_and]
          by_cases h3 : (!d.truthy || !d.hasKey "QUALTRICS_APITOKEN") = true
          · simp only [if_pos h3]
          · simp only [if_neg h3]
            cases hr2 : fs.readYaml cp with
            | none => rfl
            | some o2 =>
              cases o2 with
              | unparsable e2 => rfl
              | loaded d2 =>
                by_cases h4 : (!d2.truthy || !d2.hasKey "project_id") = true
                · simp only [if_pos h4]
                · simp only [if_neg h4]

/-- Claim C1: idempotence of formatting: whenever format succeeds with
result text u under the fixed options, formatting u again with the same
options succeeds and returns byte-identical text u. -/
theorem format_idempotent (t u : String)
    (h : format defaultOptions t = .formatted u) :
    format defaultOptions u = .formatted u := by
  obtain ⟨d, hp, hwf, hne, hu⟩ := format_formatted_inv h
  subst hu
  have hdata : (String.mk (renderDoc defaultOptions d)).data =
      renderDoc defaultOptions d := rfl
  unfold format
  rw [hdata]
  rw [if_neg (by simpa [List.isEmpty_iff] using render_strip_ne hne)]
  rw [parseDoc_render hwf]

/-- Application of the idempotence theorem at a concrete document that the
formatter normalizes. -/
theorem format_idempotent_witness :
    format defaultOptions "a:  1" = .formatted "a: 1\n" ∧
      format defaultOptions "a: 1\n" = .formatted "a: 1\n" :=
  ⟨by decide, format_idempotent "a:  1" "a: 1\n" (by decide)⟩

/-- Claim C2: totality of format: on every input string the operation
reaches exactly one of the three results; every parse failure becomes a
ParseFailed value carrying the parser message, never an escaping fault. -/
theorem format_total (t : String) :
    ((pyStrip t.data).isEmpty = true ∧
      format defaultOptions t = .nothingToFormat) ∨
    (∃ d, parseDoc defaultOptions t.data = .ok d ∧
      format defaultOptions t = .formatted (String.mk (renderDoc defaultOptions d))) ∨
    (∃ e, parseDoc defaultOptions t.data = .error e ∧
      format defaultOptions t = .parseFailed (renderErr e)) := by
  unfold format
  by_cases hs : (pyStrip t.data).isEmpty
  · rw [if_pos hs]
    exact Or.inl ⟨hs, rfl⟩
  · rw [if_neg hs]
    cases hp : parseDoc defaultOptions t.data with
    | ok d => exact Or.inr (Or.inl ⟨d, rfl, rfl⟩)
    | error e => exact Or.inr (Or.inr ⟨e, rfl, rfl⟩)

/-- Claim C3: atomicity on parse failure: when the parse of a non-blank
buffer fails, format returns ParseFailed with a nonempty message carrying
the parser position, and both editor wrappers leave the buffer untouched,
raising only an error dialog. -/
theorem format_parse_failure_atomic (buf : String) (e : PErr)
    (hne : (pyStrip buf.data).isEmpty = false)
    (hp : parseDoc defaultOptions buf.data = .error e) :
    format defaultOptions buf = .parseFailed (renderErr e) ∧
      renderErr e ≠ "" ∧
      (renderErr e).data =
        ("line " ++ toString e.line ++ ": ").data ++ e.msg.data ∧
      YAMLEditor.format_yaml buf = (buf, .errorDialog "YAML Formatting Error"
        ("Could not parse YAML. Please check your syntax.\n\nError: " ++
          renderErr e)) ∧
      EditorWindow.format_yaml buf = (buf, .errorDialog "YAML Formatting Error"
        ("Could not parse YAML.\nError: " ++ renderErr e)) := by
  refine ⟨?_, ?_, ?_, ?_, ?_⟩
  · unfold format
    rw [if_neg (by simp [hne]), hp]
  · intro h
    have h2 : (renderErr e).data = [] := by rw [h]
    unfold renderErr at h2
    simp only [String.data_append] at h2
    simp at h2
  · unfold renderErr
    simp [String.data_append]
  · unfold YAMLEditor.format_yaml
    rw [if_neg (by simp [hne]), hp]
  · unfold EditorWindow.format_yaml
    rw [if_neg (by simp [hne]), hp]

/-- Application of the parse-failure theorem at a concrete invalid input:
a lone word with no colon. -/
theorem format_parse_failure_atomic_witness :
    format defaultOptions "key" =
      .parseFailed (renderErr ⟨1, "expected a colon in a mapping entry"⟩) ∧
    YAMLEditor.format_yaml "key" = ("key", .errorDialog "YAML Formatting Error"
      ("Could not parse YAML. Please check your syntax.\n\nError: " ++
        renderErr ⟨1, "expected a colon in a mapping entry"⟩)) := by
  have h := format_parse_failure_atomic "key"
    ⟨1, "expected a colon in a mapping entry"⟩ (by decide) (by rfl)
  exact ⟨h.1, h.2.2.2.1⟩

/-- Counterexample to claim C4 as stated: in the EditorWindow variant an
empty buffer returns silently, producing no informational notice. -/
theorem empty_input_no_notice :
    EditorWindow.format_yaml "   \n" = ("   \n", UIEffect.silent) ∧
      UIEffect.isInfoNotice (EditorWindow.format_yaml "   \n").2 = false := by
  decide

/-- Claim C4 as amended: on an empty or whitespace-only buffer, format
returns the nothing-to-format sentinel and the buffer is untouched; the
YAMLEditor wrapper shows an informational notice while the EditorWindow
wrapper stays silent, and neither raises an error dialog. -/
theorem empty_input_sentinel (buf : String)
    (h : (pyStrip buf.data).isEmpty = true) :
    format defaultOptions buf = .nothingToFormat ∧
      YAMLEditor.format_yaml buf =
        (buf, .infoNotice "Nothing to Format" "The editor is empty.") ∧
      EditorWindow.format_yaml buf = (buf, .silent) ∧
      UIEffect.isErrorDialog (YAMLEditor.format_yaml buf).2 = false ∧
      UIEffect.isErrorDialog (EditorWindow.format_yaml buf).2 = false := by
  have h1 : format defaultOptions buf = .nothingToFormat := by
    unfold format
    rw [if_pos h]
  have h2 : YAMLEditor.format_yaml buf =
      (buf, .infoNotice "Nothing to Format" "The editor is empty.") := by
    unfold YAMLEditor.format_yaml
    rw [if_pos h]
  have h3 : EditorWindow.format_yaml buf = (buf, .silent) := by
    unfold EditorWindow.format_yaml
    rw [if_pos h]
  refine ⟨h1, h2, h3, ?_, ?_⟩
  · rw [h2]; rfl
  · rw [h3]; rfl

/-- Application of the empty-input theorem at the empty string. -/
theorem empty_input_sentinel_witness :
    format defaultOptions "" = .nothingToFormat ∧
      YAMLEditor.format_yaml "" =
        ("", .infoNotice "Nothing to Format" "The editor is empty.") ∧
      EditorWindow.format_yaml "" = ("", .silent) ∧
      UIEffect.isErrorDialog (YAMLEditor.format_yaml "").2 = false ∧
      UIEffect.isErrorDialog (EditorWindow.format_yaml "").2 = false :=
  empty_input_sentinel "" (by decide)

/-- Claim C5: round-trip preservation: when format succeeds, the output
reparses to exactly the document parsed from the input, so keys, values,
nesting, key order and attached comments all survive; moreover each
attached comment appears in the output on the line directly above the
line of its entry, at the same indent column. -/
theorem format_roundtrip_preserves (t u : String)
    (h : format defaultOptions t = .formatted u) :
    ∃ d, parseDoc defaultOptions t.data = .ok d ∧
      parseDoc defaultOptions u.data = .ok d ∧
      u.data = unlines ((dumpMapping defaultOptions 0 d).map
        (fun p => spaces p.1 ++ p.2)) ∧
      (∀ c k, hasCommentedEntry c k d = true →
        ∃ A B j tail,
          (dumpMapping defaultOptions 0 d).map (fun p => spaces p.1 ++ p.2) =
            A ++ (spaces j ++ '#' :: c) :: (spaces j ++ k ++ ':' :: tail) :: B) := by
  obtain ⟨d, hp, hwf, hne, hu⟩ := format_formatted_inv h
  subst hu
  refine ⟨d, hp, parseDoc_render hwf, rfl, ?_⟩
  intro c k hck
  obtain ⟨A, B, j, tail, hd⟩ := comment_adjacent hck 0
  refine ⟨A.map (fun p => spaces p.1 ++ p.2),
    B.map (fun p => spaces p.1 ++ p.2), j, tail, ?_⟩
  rw [hd]
  simp [List.map_append]

/-- Application of the round-trip theorem to a document carrying a
comment attached to its only key. -/
theorem format_roundtrip_preserves_witness :
    ∃ d, parseDoc defaultOptions ("# note\na: 1\n" : String).data = .ok d ∧
      parseDoc defaultOptions ("# note\na: 1\n" : String).data = .ok d ∧
      ("# note\na: 1\n" : String).data =
        unlines ((dumpMapping defaultOptions 0 d).map
          (fun p => spaces p.1 ++ p.2)) ∧
      (∀ c k, hasCommentedEntry c k d = true →
        ∃ A B j tail,
          (dumpMapping defaultOptions 0 d).map (fun p => spaces p.1 ++ p.2) =
            A ++ (spaces j ++ '#' :: c) :: (spaces j ++ k ++ ':' :: tail) :: B) :=
  format_roundtrip_preserves "# note\na: 1\n" "# note\na: 1\n" (by decide)

/-- Claim C6: indentation contract: with the fixed options, mappings are
indented two spaces per nesting level and sequence dashes are offset two
spaces from the parent column, placing item text four spaces in; in
particular the documented example reformats to itself with its sequence
items on lines of the shape two spaces, dash, space, item. -/
theorem format_indentation_contract :
    format defaultOptions "a:\n  b: 1\nc:\n  - 1\n  - 2\n" =
      .formatted "a:\n  b: 1\nc:\n  - 1\n  - 2\n" ∧
    defaultOptions.mappingIndent = 2 ∧ defaultOptions.sequenceIndent = 4 ∧
    defaultOptions.sequenceOffset = 2 ∧
    (∀ i c k items rest,
      dumpMapping defaultOptions i (.seqE c k items rest) =
        commentLines i c ++ (i, k ++ [':']) ::
          (items.map (fun s => (i + defaultOptions.sequenceOffset,
            '-' :: ' ' :: s)) ++ dumpMapping defaultOptions i rest)) ∧
    (∀ i c k sub rest,
      dumpMapping defaultOptions i (.mapE c k sub rest) =
        commentLines i c ++ (i, k ++ [':']) ::
          (dumpMapping defaultOptions (i + defaultOptions.mappingIndent) sub ++
            dumpMapping defaultOptions i rest)) ∧
    (∀ i s, spaces (i + defaultOptions.sequenceOffset) ++ '-' :: ' ' :: s =
      spaces i ++ ' ' :: ' ' :: '-' :: ' ' :: s) := by
  refine ⟨by decide, rfl, rfl, rfl, ?_, ?_, ?_⟩
  · intro i c k items rest
    rfl
  · intro i c k sub rest
    rfl
  · intro i s
    show List.replicate (i + 2) ' ' ++ '-' :: ' ' :: s = _
    rw [List.replicate_add]
    simp [spaces, List.replicate, List.append_assoc]

end QualtricsUtil
